import Mathlib

/-!
Verification of the dependency-graph engine of `BeJloHukku/work2`
(`src/dependency_graph.py`): the `DependencyGraph` store, the
depth-bounded recursive builder `DependencyGraphBuilder.build_graph_recursive`
(inner `bfs_recursive`), and the Kahn-style `calculate_load_order`.

Modelling conventions:
* Python `dict` (insertion-ordered, unique keys) is an association list
  `List (String × α)` with `lookupN` (first match) and `dict_set`
  (replace in place, else append) mirroring `d[k] = v`.
* Python `set` has no specified iteration order; every place the source
  iterates `all_packages` (a set) the embedding takes the enumeration as
  an explicit list parameter, constrained only to enumerate the same
  elements without duplicates (`valid_enum`).
* The metadata provider (`analyzer.get_dependencies()`) is a pure
  function `String → Option (List String)`: `some deps` for a success
  payload, `none` for any failure dict (`success: False`).
* The builder's recursion is embedded with a fuel argument; the source
  guard `depth >= max_depth` bounds the recursion depth by
  `max_depth.toNat`, and `build_graph_run` supplies fuel
  `max_depth.toNat + 1`, which the guard keeps from ever reaching 0.
* `BuildState` carries two ghost, write-only trace fields that do not
  influence control flow: `reaches` records every `(dep, depth+1)`
  dependency-processing event of the loop body, and `queried` records
  every `(package, depth)` at which the provider is consulted.
-/

/-- First-match lookup in an association list, mirroring Python
`d.get(k)` on an insertion-ordered dict with unique keys. -/
def lookupN {α : Type} : List (String × α) → String → Option α
  | [], _ => none
  | (k, v) :: rest, key => if k = key then some v else lookupN rest key

/-- Mirror of Python `d[k] = v`: replace the first binding of `key`
in place, or append a new binding. -/
def dict_set {α : Type} : List (String × α) → String → α → List (String × α)
  | [], key, val => [(key, val)]
  | (k, v) :: rest, key, val =>
    if k = key then (key, val) :: rest else (k, v) :: dict_set rest key val

/-- The Graph Store (`class DependencyGraph`): adjacency dict
`package -> [dependencies]`, the visited set, the found cycle paths and
the depth levels dict. -/
structure DependencyGraph where
  root_package : String
  graph : List (String × List String)
  visited : List String
  cycles : List (List String)
  levels : List (String × Nat)
deriving Repr, DecidableEq

/-- `DependencyGraph.add_dependency`: ensure `package` is a key, then
append `dep` to its list only if not already present. -/
def add_dependency (g : DependencyGraph) (package dep : String) : DependencyGraph :=
  let graph1 := if (lookupN g.graph package).isNone
                then dict_set g.graph package [] else g.graph
  let deps := (lookupN graph1 package).getD []
  if dep ∈ deps then { g with graph := graph1 }
  else { g with graph := dict_set graph1 package (deps ++ [dep]) }

/-- `DependencyGraph.get_dependencies`: `self.graph.get(package, [])`. -/
def get_dependencies (g : DependencyGraph) (package : String) : List String :=
  (lookupN g.graph package).getD []

/-- Membership in `DependencyGraph.get_all_packages()` (the union of all
sources and all targets), as a decidable Bool. The Python function
returns a `set`; only membership is specified, iteration order is not. -/
def all_packages_mem (g : DependencyGraph) (p : String) : Bool :=
  g.graph.any (fun e => e.1 = p) || g.graph.any (fun e => p ∈ e.2)

/-- One concrete enumeration of `get_all_packages()` (sources in dict
order, then targets, deduplicated); used for concrete evaluations. -/
def all_packages_list (g : DependencyGraph) : List String :=
  (g.graph.map Prod.fst ++
    g.graph.foldr (fun (e : String × List String) acc => e.2 ++ acc) []).dedup

/-- Result of `DependencyGraph.get_statistics()`. -/
structure Stats where
  total_packages : Nat
  total_edges : Nat
  max_depth : Nat
  cycles_found : Nat
  packages_with_dependencies : Nat
deriving Repr, DecidableEq

/-- `DependencyGraph.get_statistics`. -/
def get_statistics (g : DependencyGraph) : Stats :=
  { total_packages := (all_packages_list g).length
    total_edges := (g.graph.map (fun e => e.2.length)).sum
    max_depth := (g.levels.map Prod.snd).foldr max 0
    cycles_found := g.cycles.length
    packages_with_dependencies := g.graph.length }

/-- Mutable state threaded through `bfs_recursive`: the store under
construction and the closure variable `visited_at_depth`, plus two
ghost trace fields (`reaches`, `queried`) that no branch ever reads. -/
structure BuildState where
  graph : DependencyGraph
  visited_at_depth : List (String × Nat)
  reaches : List (String × Nat)
  queried : List (String × Nat)
deriving Repr, DecidableEq

/-- Body of the `for dep in dependencies` loop of `bfs_recursive`:
record the edge, then either record a cycle (`dep in path`), skip an
already-visited-at-shallower-depth package, or mark `dep` visited and
recurse through the continuation `visit`. The ghost `reaches` event is
recorded for every processed dependency. -/
def bfs_step (visit : String → BuildState → BuildState)
    (package : String) (depth : Nat) (path : List String)
    (st : BuildState) (dep : String) : BuildState :=
  let st1 : BuildState :=
    { st with graph := add_dependency st.graph package dep
              reaches := st.reaches ++ [(dep, depth + 1)] }
  if dep ∈ path then
    let cycle_path := path.drop (path.indexOf dep) ++ [dep]
    if cycle_path ∈ st1.graph.cycles then st1
    else { st1 with graph :=
            { st1.graph with cycles := st1.graph.cycles ++ [cycle_path] } }
  else
    match lookupN st1.visited_at_depth dep with
    | some v =>
      if v ≤ depth + 1 then st1
      else
        visit dep
          { st1 with
              visited_at_depth := dict_set st1.visited_at_depth dep (depth + 1)
              graph := { st1.graph with
                          levels := dict_set st1.graph.levels dep (depth + 1) } }
    | none =>
      visit dep
        { st1 with
            visited_at_depth := dict_set st1.visited_at_depth dep (depth + 1)
            graph := { st1.graph with
                        levels := dict_set st1.graph.levels dep (depth + 1) } }

/-- `bfs_recursive(package, depth, path)` with fuel. `max_depth` is an
integer as in Python (the CLI may hand the builder any int); `depth` is
a recursion depth and hence a `Nat`. -/
def bfs_recursive (provider : String → Option (List String)) (max_depth : Int) :
    Nat → String → Nat → List String → BuildState → BuildState
  | 0, _, _, _, st => st
  | Nat.succ fuel, package, depth, path, st =>
    if max_depth ≤ (depth : Int) then st
    else
      let st0 : BuildState := { st with queried := st.queried ++ [(package, depth)] }
      match provider package with
      | none => st0
      | some dependencies =>
        dependencies.foldl
          (bfs_step
            (fun d s =>
              bfs_recursive provider max_depth fuel d (depth + 1) (path ++ [d]) s)
            package depth path)
          st0

/-- `DependencyGraphBuilder.build_graph_recursive`, returning the full
final state (with ghost traces).  The fuel `max_depth.toNat + 1`
strictly exceeds every recursion depth the guard admits. -/
def build_graph_run (provider : String → Option (List String))
    (max_depth : Int) (root_package : String) : BuildState :=
  let g0 : DependencyGraph :=
    { root_package := root_package, graph := [], visited := [],
      cycles := [], levels := [(root_package, 0)] }
  let st0 : BuildState :=
    { graph := g0, visited_at_depth := [(root_package, 0)],
      reaches := [], queried := [] }
  let st := bfs_recursive provider max_depth (max_depth.toNat + 1)
      root_package 0 [root_package] st0
  { st with graph := { st.graph with visited := st.visited_at_depth.map Prod.fst } }

/-- `build_graph_recursive` proper: the populated store. -/
def build_graph_recursive (provider : String → Option (List String))
    (max_depth : Int) (root_package : String) : DependencyGraph :=
  (build_graph_run provider max_depth root_package).graph

/-- Result dict of `calculate_load_order`. -/
structure LoadOrderResult where
  order : List String
  levels : List (Nat × List String)
  has_cycles : Bool
  unresolved : List String
deriving Repr, DecidableEq

/-- One edge `src → dep`: append `src` to `reverse_graph[dep]` and
increment `in_degree[src]` (the source counts a package's own outgoing
edges under this name). -/
def bi_step (acc : (String → List String) × (String → Int)) (src dep : String) :
    (String → List String) × (String → Int) :=
  (fun q => if q = dep then acc.1 q ++ [src] else acc.1 q,
   fun q => if q = src then acc.2 q + 1 else acc.2 q)

/-- All edges of one adjacency entry. -/
def bi_entry (acc : (String → List String) × (String → Int))
    (e : String × List String) : (String → List String) × (String → Int) :=
  e.2.foldl (fun a dep => bi_step a e.1 dep) acc

/-- The two index maps `calculate_load_order` builds from the edges:
`reverse_graph` (target to list of sources, in edge-iteration order)
and `in_degree` (source to number of its outgoing edges). -/
def build_indices (edges : List (String × List String)) :
    (String → List String) × (String → Int) :=
  edges.foldl bi_entry (fun _ => [], fun _ => 0)

/-- Loop state of the `while queue` loop in `calculate_load_order`. -/
structure KahnState where
  in_degree : String → Int
  queue : List String
  load_order : List String
  levels_dict : List (Nat × List String)
  current_level : Nat

/-- Inner `for dependent in reverse_graph.get(package, [])` loop:
decrement each dependent, enqueueing those that reach exactly 0. -/
def process_dependents : List String → KahnState → KahnState
  | [], st => st
  | q :: rest, st =>
    let v := st.in_degree q - 1
    let ind : String → Int := fun x => if x = q then v else st.in_degree x
    let st1 : KahnState :=
      if v = 0 then { st with in_degree := ind, queue := st.queue ++ [q] }
      else { st with in_degree := ind }
    process_dependents rest st1

/-- `for package in current_level_packages` loop: append to the linear
order and process the package's dependents. -/
def process_pkgs (rg : String → List String) :
    List String → KahnState → KahnState
  | [], st => st
  | p :: rest, st =>
    let st1 : KahnState := { st with load_order := st.load_order ++ [p] }
    process_pkgs rg rest (process_dependents (rg p) st1)

/-- The `while queue` loop, with fuel bounding the number of rounds. -/
def kahn_loop (rg : String → List String) : Nat → KahnState → KahnState
  | 0, st => st
  | Nat.succ fuel, st =>
    if st.queue.isEmpty then st
    else
      let current := st.queue
      let st0 : KahnState :=
        { st with levels_dict := st.levels_dict ++ [(st.current_level, current)]
                  queue := [] }
      let st1 := process_pkgs rg current st0
      kahn_loop rg fuel { st1 with current_level := st1.current_level + 1 }

/-- `calculate_load_order(graph)`.  `all_pkgs` is the caller's
enumeration of the set `graph.get_all_packages()` (Python fixes no
order).  The fuel `all_pkgs.length + 1` covers every round the loop can
make: each non-final round moves at least one package, without
repetition, into the linear order. -/
def calculate_load_order (g : DependencyGraph) (all_pkgs : List String) :
    LoadOrderResult :=
  let idx := build_indices g.graph
  let queue := all_pkgs.filter (fun p => idx.2 p = 0)
  let final := kahn_loop idx.1 (all_pkgs.length + 1)
    { in_degree := idx.2, queue := queue, load_order := [],
      levels_dict := [], current_level := 0 }
  let unresolved := all_pkgs.filter (fun p => 0 < final.in_degree p)
  { order := final.load_order
    levels := final.levels_dict
    has_cycles := decide (0 < unresolved.length)
    unresolved := unresolved }

/-- `all_pkgs` enumerates exactly the set `get_all_packages()` of `g`,
without duplicates: every listed package is a source or a target, and
every source and target is listed. -/
def valid_enum (g : DependencyGraph) (all_pkgs : List String) : Prop :=
  all_pkgs.Nodup ∧
  (∀ p ∈ all_pkgs, all_packages_mem g p = true) ∧
  (∀ e ∈ g.graph, e.1 ∈ all_pkgs ∧ ∀ d ∈ e.2, d ∈ all_pkgs)

instance (g : DependencyGraph) (all_pkgs : List String) :
    Decidable (valid_enum g all_pkgs) := by
  unfold valid_enum; infer_instance

/-- Well-formedness every store built by one `build_graph_recursive`
run enjoys (Python dict keys are unique; `add_dependency` deduplicates
targets). -/
def StoreWF (g : DependencyGraph) : Prop :=
  (g.graph.map Prod.fst).Nodup ∧ ∀ e ∈ g.graph, e.2.Nodup

instance (g : DependencyGraph) : Decidable (StoreWF g) := by
  unfold StoreWF; infer_instance

/-- A sample store for closed witnesses: `A → B`. -/
def gEx8 : DependencyGraph :=
  { root_package := "A", graph := [("A", ["B"])], visited := ["A", "B"],
    cycles := [], levels := [("A", 0), ("B", 1)] }

/-- Provider used by concrete counterexamples: `A → B`, `B → C`,
`C` has no dependencies, everything else fails. -/
def provABC : String → Option (List String) := fun p =>
  if p = "A" then some ["B"]
  else if p = "B" then some ["C"]
  else if p = "C" then some []
  else none

/-- The edge-plus-ghost-reach update every loop iteration of
`bfs_recursive` performs first (lines 71 and the ghost trace). -/
def mark_st (st : BuildState) (package dep : String) (depth : Nat) : BuildState :=
  { st with graph := add_dependency st.graph package dep,
            reaches := st.reaches ++ [(dep, depth + 1)] }

/-- The cycle-recording branch (`dep in path`). -/
def cycle_st (st : BuildState) (path : List String) (dep : String) : BuildState :=
  let cycle_path := path.drop (path.indexOf dep) ++ [dep]
  if cycle_path ∈ st.graph.cycles then st
  else { st with graph :=
          { st.graph with cycles := st.graph.cycles ++ [cycle_path] } }

/-- The `visited_at_depth[dep] = depth+1; levels[dep] = depth+1`
update preceding a recursive visit. -/
def visit_mark_st (st : BuildState) (dep : String) (depth : Nat) : BuildState :=
  { st with
      visited_at_depth := dict_set st.visited_at_depth dep (depth + 1),
      graph := { st.graph with
                  levels := dict_set st.graph.levels dep (depth + 1) } }

/-- Scenario-5 provider: `A → B`, provider fails for `B`, `C` exists
but is unreachable. -/
def provFailB : String → Option (List String) := fun p =>
  if p = "A" then some ["B"]
  else if p = "C" then some []
  else none

/-- Invariant tying `levels`, `visited_at_depth` and the ghost reach
trace together: the two maps agree, every recorded best depth is a
lower bound on every recorded reach of that package, and every
recorded best depth (except the root seed) was actually reached. -/
structure GoodLv (root : String) (st : BuildState) : Prop where
  levels_eq : ∀ p, lookupN st.graph.levels p = lookupN st.visited_at_depth p
  reach_lb : ∀ e ∈ st.reaches, ∃ v, lookupN st.visited_at_depth e.1 = some v ∧ v ≤ e.2
  achieved : ∀ p v, lookupN st.visited_at_depth p = some v →
    (p = root ∧ v = 0) ∨ (p, v) ∈ st.reaches

/-- The recursion path is a chain of packages recorded at exactly their
positional depth. -/
def PathInv (st : BuildState) (path : List String) : Prop :=
  ∀ i (h : i < path.length), lookupN st.visited_at_depth (path.get ⟨i, h⟩) = some i

/-- Direct dependency relation recorded in a store: `a`'s adjacency
list contains `b`. -/
def EdgeTo (g : DependencyGraph) (a b : String) : Prop :=
  b ∈ get_dependencies g a

instance (g : DependencyGraph) (a b : String) : Decidable (EdgeTo g a b) := by
  unfold EdgeTo; infer_instance

/-- Invariant of the `while queue` loop of `calculate_load_order`
(between rounds). -/
def KInv (g : DependencyGraph) (all_pkgs : List String) (st : KahnState) : Prop :=
  (st.load_order ++ st.queue).Nodup ∧
  (∀ p ∈ st.load_order ++ st.queue, p ∈ all_pkgs) ∧
  (∀ q, st.in_degree q =
    (((get_dependencies g q).filter (fun d => ¬ d ∈ st.load_order)).length : Int)) ∧
  (∀ p ∈ st.queue, ∀ d ∈ get_dependencies g p, d ∈ st.load_order) ∧
  (∀ p ∈ all_pkgs, st.in_degree p = 0 → p ∈ st.load_order ∨ p ∈ st.queue) ∧
  (∀ i (h : i < st.load_order.length),
    ∀ d ∈ get_dependencies g (st.load_order.get ⟨i, h⟩), d ∈ st.load_order.take i)

/-- Invariant holding in the middle of one round, with `l` the packages
of the round still to process (the state's `queue` is the next round's
queue under construction). -/
def KMid (g : DependencyGraph) (all_pkgs : List String) (l : List String)
    (st : KahnState) : Prop :=
  (st.load_order ++ l ++ st.queue).Nodup ∧
  (∀ p ∈ st.load_order ++ l ++ st.queue, p ∈ all_pkgs) ∧
  (∀ q, st.in_degree q =
    (((get_dependencies g q).filter (fun d => ¬ d ∈ st.load_order)).length : Int)) ∧
  (∀ p ∈ l, ∀ d ∈ get_dependencies g p, d ∈ st.load_order) ∧
  (∀ p ∈ st.queue, ∀ d ∈ get_dependencies g p, d ∈ st.load_order) ∧
  (∀ p ∈ all_pkgs, st.in_degree p = 0 →
    p ∈ st.load_order ∨ p ∈ l ∨ p ∈ st.queue) ∧
  (∀ i (h : i < st.load_order.length),
    ∀ d ∈ get_dependencies g (st.load_order.get ⟨i, h⟩), d ∈ st.load_order.take i)

/-- Choice of an unplaced direct dependency (used to exhibit a cycle
among the unresolved packages). -/
def next_unresolved (g : DependencyGraph) (order : List String) (p : String) : String :=
  match (get_dependencies g p).filter (fun d => ¬ d ∈ order) with
  | [] => p
  | d :: _ => d

/-- The state in which `calculate_load_order`'s `while` loop
terminates. -/
def kahn_final (g : DependencyGraph) (all_pkgs : List String) : KahnState :=
  kahn_loop (build_indices g.graph).1 (all_pkgs.length + 1)
    { in_degree := (build_indices g.graph).2,
      queue := all_pkgs.filter (fun p => (build_indices g.graph).2 p = 0),
      load_order := [], levels_dict := [], current_level := 0 }

/-- A two-package cyclic store: `A → B`, `B → A`. -/
def gCyc : DependencyGraph :=
  { root_package := "A", graph := [("A", ["B"]), ("B", ["A"])],
    visited := ["A", "B"], cycles := [["A", "B", "A"]],
    levels := [("A", 0), ("B", 1)] }

/-- Store `c → b, c → a`, used to exhibit an unsorted ready queue. -/
def gC2 : DependencyGraph :=
  { root_package := "c", graph := [("c", ["b", "a"])],
    visited := ["c", "b", "a"], cycles := [], levels := [("c", 0)] }

/-! ## Theorems -/

/-! ### Association-list lemmas -/

theorem lookupN_dict_set_self {α : Type} (l : List (String × α)) (k : String) (v : α) :
    lookupN (dict_set l k v) k = some v := by
  induction l with
  | nil => simp [dict_set, lookupN]
  | cons e rest ih =>
    by_cases h : e.1 = k
    · simp [dict_set, h, lookupN]
    · simpa [dict_set, h, lookupN] using ih

theorem lookupN_dict_set_ne {α : Type} (l : List (String × α)) (k k' : String) (v : α)
    (h : k' ≠ k) : lookupN (dict_set l k v) k' = lookupN l k' := by
  induction l with
  | nil =>
    simp only [dict_set, lookupN]
    rw [if_neg (fun h' => h h'.symm)]
  | cons e rest ih =>
    rcases e with ⟨a, b⟩
    by_cases he : a = k
    · subst he
      simp only [dict_set, if_pos rfl, lookupN]
      rw [if_neg (fun h' => h h'.symm), if_neg]
      intro h'
      exact h h'.symm
    · simp only [dict_set, if_neg he, lookupN]
      by_cases he' : a = k' <;> simp [he', ih]

theorem lookupN_eq_none_iff {α : Type} (l : List (String × α)) (k : String) :
    lookupN l k = none ↔ k ∉ l.map Prod.fst := by
  induction l with
  | nil => simp [lookupN]
  | cons e rest ih =>
    rcases e with ⟨a, b⟩
    by_cases h : a = k
    · subst h; simp [lookupN]
    · simp [lookupN, h, ih, Ne.symm h]

theorem lookupN_mem {α : Type} (l : List (String × α)) (k : String) (v : α)
    (h : lookupN l k = some v) : (k, v) ∈ l := by
  induction l with
  | nil => simp [lookupN] at h
  | cons e rest ih =>
    rcases e with ⟨a, b⟩
    by_cases he : a = k
    · subst he
      have hb : b = v := by simpa [lookupN] using h
      subst hb
      exact List.mem_cons_self _ _
    · simp only [lookupN, if_neg he] at h
      exact List.mem_cons_of_mem _ (ih h)

theorem map_fst_dict_set_mem {α : Type} (l : List (String × α)) (k : String) (v : α)
    (h : k ∈ l.map Prod.fst) : (dict_set l k v).map Prod.fst = l.map Prod.fst := by
  induction l with
  | nil => simp at h
  | cons e rest ih =>
    rcases e with ⟨a, b⟩
    by_cases he : a = k
    · subst he; simp [dict_set]
    · simp only [List.map_cons, List.mem_cons] at h
      rcases h with h | h
      · exact absurd h.symm he
      · simp [dict_set, he, ih h]

theorem map_fst_dict_set_not_mem {α : Type} (l : List (String × α)) (k : String) (v : α)
    (h : k ∉ l.map Prod.fst) :
    (dict_set l k v).map Prod.fst = l.map Prod.fst ++ [k] := by
  induction l with
  | nil => simp [dict_set]
  | cons e rest ih =>
    rcases e with ⟨a, b⟩
    simp only [List.map_cons, List.mem_cons] at h
    push_neg at h
    by_cases he : a = k
    · exact absurd he.symm h.1
    · simp [dict_set, he, ih h.2]

theorem mem_dict_set {α : Type} (l : List (String × α)) (k k' : String) (v v' : α)
    (h : (k', v') ∈ dict_set l k v) : (k', v') ∈ l ∨ (k' = k ∧ v' = v) := by
  induction l with
  | nil =>
    right
    rcases List.mem_singleton.mp h with h'
    exact ⟨congrArg Prod.fst h', congrArg Prod.snd h'⟩
  | cons e rest ih =>
    rcases e with ⟨a, b⟩
    by_cases he : a = k
    · subst he
      rw [dict_set, if_pos rfl] at h
      rcases List.mem_cons.mp h with h' | h'
      · exact Or.inr ⟨congrArg Prod.fst h', congrArg Prod.snd h'⟩
      · exact Or.inl (List.mem_cons_of_mem _ h')
    · rw [dict_set, if_neg he] at h
      rcases List.mem_cons.mp h with h' | h'
      · exact Or.inl (List.mem_cons.mpr (Or.inl h'))
      · rcases ih h' with h2 | h2
        · exact Or.inl (List.mem_cons_of_mem _ h2)
        · exact Or.inr h2

/-! ### `add_dependency` lemmas -/

/-- `add_dependency` touches only the adjacency dict. -/
theorem add_dependency_fields (g : DependencyGraph) (p d : String) :
    (add_dependency g p d).root_package = g.root_package ∧
    (add_dependency g p d).visited = g.visited ∧
    (add_dependency g p d).cycles = g.cycles ∧
    (add_dependency g p d).levels = g.levels := by
  unfold add_dependency
  split
  all_goals dsimp only
  all_goals split
  all_goals exact ⟨rfl, rfl, rfl, rfl⟩

theorem add_dependency_of_mem (g : DependencyGraph) (p d : String)
    (h : d ∈ get_dependencies g p) : add_dependency g p d = g := by
  unfold add_dependency
  have hlk : ¬ (lookupN g.graph p).isNone := by
    unfold get_dependencies at h
    cases hc : lookupN g.graph p with
    | none => rw [hc] at h; simp at h
    | some v => simp
  rw [if_neg hlk]
  dsimp only
  rw [if_pos (show d ∈ (lookupN g.graph p).getD [] from h)]

theorem get_dependencies_add_self (g : DependencyGraph) (p d : String)
    (h : d ∉ get_dependencies g p) :
    get_dependencies (add_dependency g p d) p = get_dependencies g p ++ [d] := by
  unfold add_dependency
  unfold get_dependencies at h ⊢
  cases hc : lookupN g.graph p with
  | none =>
    rw [hc] at h
    simp [hc, lookupN_dict_set_self]
  | some deps =>
    rw [hc] at h
    simp only [Option.getD_some] at h
    simp [hc, h, lookupN_dict_set_self]

theorem get_dependencies_add_ne (g : DependencyGraph) (p d q : String)
    (h : q ≠ p) :
    get_dependencies (add_dependency g p d) q = get_dependencies g q := by
  unfold add_dependency get_dependencies
  cases hc : lookupN g.graph p with
  | none =>
    simp only [hc, Option.isNone_none, if_true]
    split <;> simp [lookupN_dict_set_ne _ _ _ _ h]
  | some deps =>
    simp only [hc, Option.isNone_some, Bool.false_eq_true, if_false]
    split <;> simp [lookupN_dict_set_ne _ _ _ _ h]

theorem lookupN_add_dependency_ne (g : DependencyGraph) (p d q : String)
    (h : q ≠ p) : lookupN (add_dependency g p d).graph q = lookupN g.graph q := by
  unfold add_dependency
  cases hc : lookupN g.graph p with
  | none =>
    simp only [hc, Option.isNone_none, if_true]
    split <;> simp [lookupN_dict_set_ne _ _ _ _ h]
  | some deps =>
    simp only [hc, Option.isNone_some, Bool.false_eq_true, if_false]
    split <;> simp [lookupN_dict_set_ne _ _ _ _ h]

theorem dict_set_keys_nodup {α : Type} (l : List (String × α)) (k : String) (v : α)
    (h : (l.map Prod.fst).Nodup) : ((dict_set l k v).map Prod.fst).Nodup := by
  by_cases hk : k ∈ l.map Prod.fst
  · rw [map_fst_dict_set_mem _ _ _ hk]; exact h
  · rw [map_fst_dict_set_not_mem _ _ _ hk]
    refine List.Nodup.append h (List.nodup_singleton k) ?_
    intro x hx hy
    rw [List.mem_singleton] at hy
    subst hy
    exact hk hx

theorem add_dependency_graph_none (g : DependencyGraph) (p d : String)
    (hc : lookupN g.graph p = none) :
    (add_dependency g p d).graph = dict_set (dict_set g.graph p []) p [d] := by
  simp [add_dependency, hc, lookupN_dict_set_self]

theorem add_dependency_graph_mem (g : DependencyGraph) (p d : String) (deps : List String)
    (hc : lookupN g.graph p = some deps) (hd : d ∈ deps) :
    (add_dependency g p d).graph = g.graph := by
  simp [add_dependency, hc, hd]

theorem add_dependency_graph_new (g : DependencyGraph) (p d : String) (deps : List String)
    (hc : lookupN g.graph p = some deps) (hd : d ∉ deps) :
    (add_dependency g p d).graph = dict_set g.graph p (deps ++ [d]) := by
  simp [add_dependency, hc, hd]

theorem add_dependency_values_nodup (g : DependencyGraph) (p d : String)
    (h : ∀ e ∈ g.graph, e.2.Nodup) :
    ∀ e ∈ (add_dependency g p d).graph, e.2.Nodup := by
  cases hc : lookupN g.graph p with
  | none =>
    rw [add_dependency_graph_none g p d hc]
    rintro ⟨a, b⟩ hm
    rcases mem_dict_set _ _ _ _ _ hm with hm' | hm'
    · rcases mem_dict_set _ _ _ _ _ hm' with hm2 | hm2
      · exact h _ hm2
      · simp [hm2.2]
    · simp [hm'.2]
  | some deps =>
    by_cases hd : d ∈ deps
    · rw [add_dependency_graph_mem g p d deps hc hd]
      exact h
    · rw [add_dependency_graph_new g p d deps hc hd]
      rintro ⟨a, b⟩ hm
      rcases mem_dict_set _ _ _ _ _ hm with hm' | hm'
      · exact h _ hm'
      · rcases hm' with ⟨rfl, rfl⟩
        have hdn : deps.Nodup := h _ (lookupN_mem _ _ _ hc)
        refine List.Nodup.append hdn (List.nodup_singleton d) ?_
        intro x hx hy
        rw [List.mem_singleton] at hy
        subst hy
        exact hd hx

theorem add_dependency_keys_nodup (g : DependencyGraph) (p d : String)
    (h : (g.graph.map Prod.fst).Nodup) :
    ((add_dependency g p d).graph.map Prod.fst).Nodup := by
  cases hc : lookupN g.graph p with
  | none =>
    rw [add_dependency_graph_none g p d hc]
    exact dict_set_keys_nodup _ _ _ (dict_set_keys_nodup _ _ _ h)
  | some deps =>
    by_cases hd : d ∈ deps
    · rw [add_dependency_graph_mem g p d deps hc hd]
      exact h
    · rw [add_dependency_graph_new g p d deps hc hd]
      exact dict_set_keys_nodup _ _ _ h

/-- C8: `add_dependency` is idempotent — re-adding a present edge leaves
the adjacency dict (hence `get_statistics().total_edges`) unchanged; a
fresh edge is appended at the end of the source's list; and adding an
edge preserves duplicate-freeness of every adjacency list. -/
theorem claim_C8_addEdge_idempotent (g : DependencyGraph) (package dep : String)
    (hnodup : ∀ e ∈ g.graph, e.2.Nodup) :
    (dep ∈ get_dependencies g package →
      add_dependency g package dep = g ∧
      (get_statistics (add_dependency g package dep)).total_edges
        = (get_statistics g).total_edges) ∧
    (dep ∉ get_dependencies g package →
      get_dependencies (add_dependency g package dep) package
        = get_dependencies g package ++ [dep]) ∧
    (∀ e ∈ (add_dependency g package dep).graph, e.2.Nodup) := by
  refine ⟨fun h => ?_, fun h => get_dependencies_add_self g package dep h,
    add_dependency_values_nodup g package dep hnodup⟩
  rw [add_dependency_of_mem g package dep h]
  exact ⟨rfl, rfl⟩

/-- Witness for C8 on the concrete store `A → B`: re-adding `A → B`
is a no-op, adding `A → C` appends. -/
theorem claim_C8_witness :
    add_dependency gEx8 "A" "B" = gEx8 ∧
    get_dependencies (add_dependency gEx8 "A" "C") "A" = ["B", "C"] := by
  constructor
  · exact ((claim_C8_addEdge_idempotent gEx8 "A" "B" (by decide)).1 (by decide)).1
  · have h := (claim_C8_addEdge_idempotent gEx8 "A" "C" (by decide)).2.1 (by decide)
    rw [h]
    decide

/-! ### C5: `max_depth` is not validated -/

/-- C5 counterexample: with `max_depth = 0 < 1` the builder is
constructed and `build` runs to completion, returning a normal
root-only store and never consulting the provider — there is no
construction-time precondition violation anywhere in
`DependencyGraphBuilder.__init__` (src/dependency_graph.py:47-49). -/
theorem claim_C5_counterexample :
    (build_graph_run provABC 0 "A").graph =
      { root_package := "A", graph := [], visited := ["A"], cycles := [],
        levels := [("A", 0)] } ∧
    (build_graph_run provABC 0 "A").queried = [] := by
  constructor <;> rfl

/-- C5 amended: the constructor accepts any integer `max_depth`; for
every `max_depth < 1`, `build` succeeds, returns the root-only store
(root at level 0, no edges, no cycles) and never queries the provider. -/
theorem claim_C5_no_validation (provider : String → Option (List String))
    (max_depth : Int) (root : String) (h : max_depth < 1) :
    build_graph_run provider max_depth root =
      { graph := { root_package := root, graph := [], visited := [root],
                   cycles := [], levels := [(root, 0)] },
        visited_at_depth := [(root, 0)], reaches := [], queried := [] } := by
  unfold build_graph_run
  have h0 : max_depth.toNat = 0 := Int.toNat_of_nonpos (by omega)
  rw [h0]
  have hg : max_depth ≤ ((0 : Nat) : Int) := by simp; omega
  simp only [bfs_recursive, if_pos hg]
  rfl

/-- Witness for C5 amended at `max_depth = 0`. -/
theorem claim_C5_witness :
    (0 : Int) < 1 ∧
    build_graph_run provABC 0 "B" =
      { graph := { root_package := "B", graph := [], visited := ["B"],
                   cycles := [], levels := [("B", 0)] },
        visited_at_depth := [("B", 0)], reaches := [], queried := [] } :=
  ⟨by decide, claim_C5_no_validation provABC 0 "B" (by decide)⟩

/-! ### Generic machinery for the builder recursion -/

theorem foldl_inv {α σ : Type} (P : σ → Prop) (f : σ → α → σ) (l : List α)
    (hf : ∀ s a, a ∈ l → P s → P (f s a)) (s : σ) (hs : P s) :
    P (l.foldl f s) := by
  induction l generalizing s with
  | nil => exact hs
  | cons a rest ih =>
    exact ih (fun s' a' ha' hs' => hf s' a' (List.mem_cons_of_mem _ ha') hs')
      (f s a) (hf s a (List.mem_cons_self _ _) hs)

/-- One unrolling of `bfs_recursive` at positive fuel. -/
theorem bfs_recursive_succ (provider : String → Option (List String))
    (max_depth : Int) (fuel : Nat) (package : String) (depth : Nat)
    (path : List String) (st : BuildState) :
    bfs_recursive provider max_depth (fuel + 1) package depth path st =
      if max_depth ≤ (depth : Int) then st
      else
        match provider package with
        | none => { st with queried := st.queried ++ [(package, depth)] }
        | some dependencies =>
          dependencies.foldl
            (bfs_step
              (fun d s =>
                bfs_recursive provider max_depth fuel d (depth + 1) (path ++ [d]) s)
              package depth path)
            { st with queried := st.queried ++ [(package, depth)] } := rfl

/-- A state predicate preserved by every `bfs_step` branch (given the
continuation preserves it) and by the ghost `queried` append is
preserved by the whole recursion. -/
theorem bfs_recursive_inv (P : BuildState → Prop)
    (provider : String → Option (List String)) (max_depth : Int)
    (hstep : ∀ (visit : String → BuildState → BuildState) package depth path st dep deps,
      provider package = some deps → dep ∈ deps →
      (∀ d s, P s → P (visit d s)) → P st → P (bfs_step visit package depth path st dep))
    (hquery : ∀ (st : BuildState) (package : String) (depth : Nat),
      ¬ max_depth ≤ (depth : Int) → P st →
      P { st with queried := st.queried ++ [(package, depth)] }) :
    ∀ fuel package depth path st, P st →
      P (bfs_recursive provider max_depth fuel package depth path st) := by
  intro fuel
  induction fuel with
  | zero => intro _ _ _ st h; exact h
  | succ fuel ih =>
    intro package depth path st h
    rw [bfs_recursive_succ]
    split
    · exact h
    · rename_i hguard
      cases hp : provider package with
      | none => exact hquery st package depth hguard h
      | some deps =>
        exact foldl_inv P _ deps
          (fun s a ha hs =>
            hstep _ package depth path s a deps hp ha
              (fun d s' hs' => ih d (depth + 1) (path ++ [d]) s' hs') hs)
          _ (hquery st package depth hguard h)

/-- `bfs_step` in terms of the three named updates. -/
theorem bfs_step_eq (visit : String → BuildState → BuildState)
    (package : String) (depth : Nat) (path : List String)
    (st : BuildState) (dep : String) :
    bfs_step visit package depth path st dep =
      if dep ∈ path then cycle_st (mark_st st package dep depth) path dep
      else
        match lookupN st.visited_at_depth dep with
        | some v =>
          if v ≤ depth + 1 then mark_st st package dep depth
          else visit dep (visit_mark_st (mark_st st package dep depth) dep depth)
        | none => visit dep (visit_mark_st (mark_st st package dep depth) dep depth) :=
  rfl

theorem mark_st_queried (st : BuildState) (package dep : String) (depth : Nat) :
    (mark_st st package dep depth).queried = st.queried := rfl

theorem mark_st_visited (st : BuildState) (package dep : String) (depth : Nat) :
    (mark_st st package dep depth).visited_at_depth = st.visited_at_depth := rfl

theorem mark_st_reaches (st : BuildState) (package dep : String) (depth : Nat) :
    (mark_st st package dep depth).reaches = st.reaches ++ [(dep, depth + 1)] := rfl

theorem mark_st_cycles (st : BuildState) (package dep : String) (depth : Nat) :
    (mark_st st package dep depth).graph.cycles = st.graph.cycles :=
  (add_dependency_fields st.graph package dep).2.2.1

theorem mark_st_levels (st : BuildState) (package dep : String) (depth : Nat) :
    (mark_st st package dep depth).graph.levels = st.graph.levels :=
  (add_dependency_fields st.graph package dep).2.2.2

theorem cycle_st_queried (st : BuildState) (path : List String) (dep : String) :
    (cycle_st st path dep).queried = st.queried := by
  unfold cycle_st
  dsimp only
  split <;> rfl

theorem cycle_st_visited (st : BuildState) (path : List String) (dep : String) :
    (cycle_st st path dep).visited_at_depth = st.visited_at_depth := by
  unfold cycle_st
  dsimp only
  split <;> rfl

theorem cycle_st_reaches (st : BuildState) (path : List String) (dep : String) :
    (cycle_st st path dep).reaches = st.reaches := by
  unfold cycle_st
  dsimp only
  split <;> rfl

theorem cycle_st_levels (st : BuildState) (path : List String) (dep : String) :
    (cycle_st st path dep).graph.levels = st.graph.levels := by
  unfold cycle_st
  dsimp only
  split <;> rfl

theorem cycle_st_adj (st : BuildState) (path : List String) (dep : String) :
    (cycle_st st path dep).graph.graph = st.graph.graph := by
  unfold cycle_st
  dsimp only
  split <;> rfl

theorem visit_mark_st_queried (st : BuildState) (dep : String) (depth : Nat) :
    (visit_mark_st st dep depth).queried = st.queried := rfl

theorem visit_mark_st_reaches (st : BuildState) (dep : String) (depth : Nat) :
    (visit_mark_st st dep depth).reaches = st.reaches := rfl

theorem visit_mark_st_cycles (st : BuildState) (dep : String) (depth : Nat) :
    (visit_mark_st st dep depth).graph.cycles = st.graph.cycles := rfl

theorem visit_mark_st_adj (st : BuildState) (dep : String) (depth : Nat) :
    (visit_mark_st st dep depth).graph.graph = st.graph.graph := rfl

/-- Lifting a pointwise property of `queried` entries through one
`bfs_step`. -/
theorem bfs_step_queried_pred (Q : String × Nat → Prop)
    (visit : String → BuildState → BuildState)
    (package : String) (depth : Nat) (path : List String)
    (st : BuildState) (dep : String)
    (hvisit : ∀ d s, (∀ e ∈ s.queried, Q e) → ∀ e ∈ (visit d s).queried, Q e)
    (hst : ∀ e ∈ st.queried, Q e) :
    ∀ e ∈ (bfs_step visit package depth path st dep).queried, Q e := by
  rw [bfs_step_eq]
  split
  · rw [cycle_st_queried, mark_st_queried]
    exact hst
  · cases hv : lookupN st.visited_at_depth dep with
    | some v =>
      simp only
      split
      · rw [mark_st_queried]
        exact hst
      · refine hvisit _ _ ?_
        rw [visit_mark_st_queried, mark_st_queried]
        exact hst
    | none =>
      refine hvisit _ _ ?_
      rw [visit_mark_st_queried, mark_st_queried]
      exact hst

/-! ### C7: `max_depth` is a hard query cutoff -/

/-- C7: (1) a visit at `depth ≥ max_depth` returns the state untouched
(no provider query, no outgoing edges); (2) every provider query of a
whole run happens at a depth strictly below `max_depth`; (3) Scenario 4:
`max_depth = 1` on `A→B, B→C` records edge `A→B` only, levels
`{A:0, B:1}`, and queries only `A` (never `B`). -/
theorem claim_C7_depth_cutoff (provider : String → Option (List String))
    (max_depth : Int) (root : String) :
    (∀ (fuel : Nat) (package : String) (depth : Nat) (path : List String)
        (st : BuildState), max_depth ≤ (depth : Int) →
        bfs_recursive provider max_depth fuel package depth path st = st) ∧
    (∀ e ∈ (build_graph_run provider max_depth root).queried,
        (e.2 : Int) < max_depth) ∧
    ((build_graph_recursive provABC 1 "A" =
      { root_package := "A", graph := [("A", ["B"])], visited := ["A", "B"],
        cycles := [], levels := [("A", 0), ("B", 1)] }) ∧
     (build_graph_run provABC 1 "A").queried = [("A", 0)]) := by
  refine ⟨?_, ?_, by decide, by decide⟩
  · intro fuel package depth path st h
    cases fuel with
    | zero => rfl
    | succ fuel => rw [bfs_recursive_succ, if_pos h]
  · have hinv := bfs_recursive_inv
      (fun st => ∀ e ∈ st.queried, (e.2 : Int) < max_depth) provider max_depth
      (fun visit package depth path st dep deps hp hd hvisit hst =>
        bfs_step_queried_pred (fun e => (e.2 : Int) < max_depth)
          visit package depth path st dep hvisit hst)
      (by
        intro st package depth hguard hst
        intro e he
        simp only [List.mem_append, List.mem_singleton] at he
        rcases he with he | he
        · exact hst e he
        · subst he
          simpa using by omega
      )
    intro e he
    unfold build_graph_run at he
    exact hinv _ _ _ _ _ (by intro e' he'; simp at he') e he

/-! ### C6: provider failures are local and silent -/

theorem drop_indexOf_cons (path : List String) (dep : String) (h : dep ∈ path) :
    ∃ t, path.drop (path.indexOf dep) = dep :: t := by
  induction path with
  | nil => cases h
  | cons a rest ih =>
    by_cases ha : a = dep
    · subst ha
      rw [List.indexOf_cons_self]
      exact ⟨rest, rfl⟩
    · rw [List.indexOf_cons_ne _ ha]
      rw [List.drop_succ_cons]
      exact ih (by rcases List.mem_cons.mp h with h' | h'
                   exacts [absurd h'.symm ha, h'])

/-- Packages for which the provider fails never acquire an adjacency
key during a run. -/
theorem bfs_nokey_inv (provider : String → Option (List String)) (max_depth : Int) :
    ∀ fuel package depth path st,
      (∀ q, provider q = none → lookupN st.graph.graph q = none) →
      ∀ q, provider q = none →
        lookupN (bfs_recursive provider max_depth fuel package depth path st).graph.graph q
          = none := by
  have h := bfs_recursive_inv
    (fun st => ∀ q, provider q = none → lookupN st.graph.graph q = none)
    provider max_depth
    (by
      intro visit package depth path st dep deps hp hd hvisit hst
      have hmark : ∀ q, provider q = none →
          lookupN (mark_st st package dep depth).graph.graph q = none := by
        intro q hq
        have hqp : q ≠ package := by
          intro hh
          rw [hh, hp] at hq
          cases hq
        show lookupN (add_dependency st.graph package dep).graph q = none
        rw [lookupN_add_dependency_ne _ _ _ _ hqp]
        exact hst q hq
      rw [bfs_step_eq]
      split
      · intro q hq
        rw [cycle_st_adj]
        exact hmark q hq
      · cases hv : lookupN st.visited_at_depth dep with
        | some v =>
          simp only
          split
          · exact hmark
          · refine hvisit _ _ ?_
            intro q hq
            rw [visit_mark_st_adj]
            exact hmark q hq
        | none =>
          refine hvisit _ _ ?_
          intro q hq
          rw [visit_mark_st_adj]
          exact hmark q hq)
    (by intro st package depth hguard hst; exact hst)
  intro fuel package depth path st hst
  exact h fuel package depth path st hst

/-- C6: if the provider fails for `p`, the finished store records no
outgoing edge for `p` (`get_dependencies` is empty), while the run
itself completes; concretely, in Scenario 5 (`A→B→C`, provider fails
for `B`) the edge `A→B` (recorded by `A`'s expansion) survives, `B`
has no outgoing edges, and the store is otherwise normal. -/
theorem claim_C6_provider_failure (provider : String → Option (List String))
    (max_depth : Int) (root p : String) (hfail : provider p = none) :
    get_dependencies (build_graph_recursive provider max_depth root) p = [] ∧
    build_graph_recursive provFailB 3 "A" =
      { root_package := "A", graph := [("A", ["B"])], visited := ["A", "B"],
        cycles := [], levels := [("A", 0), ("B", 1)] } := by
  constructor
  · unfold build_graph_recursive build_graph_run get_dependencies
    have := bfs_nokey_inv provider max_depth (max_depth.toNat + 1) root 0 [root]
      { graph := { root_package := root, graph := [], visited := [],
                   cycles := [], levels := [(root, 0)] },
        visited_at_depth := [(root, 0)], reaches := [], queried := [] }
      (by intro q hq; rfl) p hfail
    simp only [this]
    rfl
  · decide

/-- Witness for C6: the provider of Scenario 5 fails on `B`, and the
finished store has no outgoing edges for `B`. -/
theorem claim_C6_witness :
    provFailB "B" = none ∧
    get_dependencies (build_graph_recursive provFailB 3 "A") "B" = [] :=
  ⟨by decide, (claim_C6_provider_failure provFailB 3 "A" "B" (by decide)).1⟩

/-! ### C9: cycle-path collection invariants -/

/-- The cycle collection stays duplicate-free and every entry starts
and ends with the repeated package, through one `bfs_step`. -/
theorem bfs_step_cycles_pred (visit : String → BuildState → BuildState)
    (package : String) (depth : Nat) (path : List String)
    (st : BuildState) (dep : String)
    (hvisit : ∀ d s,
      (s.graph.cycles.Nodup ∧ ∀ c ∈ s.graph.cycles, c ≠ [] ∧ c.head? = c.getLast?) →
      ((visit d s).graph.cycles.Nodup ∧
        ∀ c ∈ (visit d s).graph.cycles, c ≠ [] ∧ c.head? = c.getLast?))
    (hst : st.graph.cycles.Nodup ∧
      ∀ c ∈ st.graph.cycles, c ≠ [] ∧ c.head? = c.getLast?) :
    (bfs_step visit package depth path st dep).graph.cycles.Nodup ∧
      ∀ c ∈ (bfs_step visit package depth path st dep).graph.cycles,
        c ≠ [] ∧ c.head? = c.getLast? := by
  have hmark : (mark_st st package dep depth).graph.cycles.Nodup ∧
      ∀ c ∈ (mark_st st package dep depth).graph.cycles,
        c ≠ [] ∧ c.head? = c.getLast? := by
    rw [mark_st_cycles]
    exact hst
  rw [bfs_step_eq]
  split
  · rename_i hdep
    unfold cycle_st
    dsimp only
    rw [mark_st_cycles]
    split
    · exact hmark
    · rename_i hnotmem
      rcases drop_indexOf_cons path dep hdep with ⟨t, hdrop⟩
      constructor
      · refine List.Nodup.append hst.1 (List.nodup_singleton _) ?_
        intro x hx hy
        rw [List.mem_singleton] at hy
        subst hy
        exact hnotmem hx
      · intro c hc
        rcases List.mem_append.mp hc with hc' | hc'
        · exact hst.2 c hc'
        · rw [List.mem_singleton] at hc'
          subst hc'
          rw [hdrop]
          refine ⟨by simp, ?_⟩
          rw [List.getLast?_concat]
          rfl
  · cases hv : lookupN st.visited_at_depth dep with
    | some v =>
      simp only
      split
      · exact hmark
      · refine hvisit _ _ ?_
        rw [visit_mark_st_cycles, mark_st_cycles]
        exact hst
    | none =>
      refine hvisit _ _ ?_
      rw [visit_mark_st_cycles, mark_st_cycles]
      exact hst

/-- C9: in the store produced by any traversal, no cycle-path occurs
twice (exact sequence equality) and every cycle-path is nonempty with
first element equal to its last. -/
theorem claim_C9_cycles_unique_closed (provider : String → Option (List String))
    (max_depth : Int) (root : String) :
    (build_graph_recursive provider max_depth root).cycles.Nodup ∧
    ∀ c ∈ (build_graph_recursive provider max_depth root).cycles,
      c ≠ [] ∧ c.head? = c.getLast? := by
  have h := bfs_recursive_inv
    (fun st => st.graph.cycles.Nodup ∧
      ∀ c ∈ st.graph.cycles, c ≠ [] ∧ c.head? = c.getLast?)
    provider max_depth
    (fun visit package depth path st dep deps hp hd hvisit hst =>
      bfs_step_cycles_pred visit package depth path st dep hvisit hst)
    (by intro st package depth hguard hst; exact hst)
    (max_depth.toNat + 1) root 0 [root]
    { graph := { root_package := root, graph := [], visited := [],
                 cycles := [], levels := [(root, 0)] },
      visited_at_depth := [(root, 0)], reaches := [], queried := [] }
    (by constructor
        · exact List.nodup_nil
        · intro c hc
          cases hc)
  exact h

/-! ### C4: levels are the minimum over reach events -/

theorem goodlv_mark_of_le (root : String) (st : BuildState)
    (package dep : String) (depth v : Nat)
    (hv : lookupN st.visited_at_depth dep = some v) (hle : v ≤ depth + 1)
    (hg : GoodLv root st) : GoodLv root (mark_st st package dep depth) := by
  refine ⟨?_, ?_, ?_⟩
  · intro p
    rw [mark_st_levels, mark_st_visited]
    exact hg.levels_eq p
  · intro e he
    rw [mark_st_reaches] at he
    rw [mark_st_visited]
    rcases List.mem_append.mp he with he' | he'
    · exact hg.reach_lb e he'
    · rw [List.mem_singleton] at he'
      subst he'
      exact ⟨v, hv, hle⟩
  · intro p v' hp
    rw [mark_st_visited] at hp
    rw [mark_st_reaches]
    rcases hg.achieved p v' hp with h | h
    · exact Or.inl h
    · exact Or.inr (List.mem_append.mpr (Or.inl h))

theorem goodlv_cycle (root : String) (st : BuildState) (path : List String)
    (dep : String) (hg : GoodLv root st) : GoodLv root (cycle_st st path dep) := by
  refine ⟨?_, ?_, ?_⟩
  · intro p
    rw [cycle_st_levels, cycle_st_visited]
    exact hg.levels_eq p
  · intro e he
    rw [cycle_st_reaches] at he
    rw [cycle_st_visited]
    exact hg.reach_lb e he
  · intro p v hp
    rw [cycle_st_visited] at hp
    rw [cycle_st_reaches]
    exact hg.achieved p v hp

theorem goodlv_recurse (root : String) (st : BuildState)
    (package dep : String) (depth : Nat)
    (hcase : lookupN st.visited_at_depth dep = none ∨
      ∃ v, lookupN st.visited_at_depth dep = some v ∧ depth + 1 < v)
    (hg : GoodLv root st) :
    GoodLv root (visit_mark_st (mark_st st package dep depth) dep depth) := by
  have hvis : (visit_mark_st (mark_st st package dep depth) dep depth).visited_at_depth
      = dict_set st.visited_at_depth dep (depth + 1) := rfl
  have hlev : (visit_mark_st (mark_st st package dep depth) dep depth).graph.levels
      = dict_set st.graph.levels dep (depth + 1) := by
    show (dict_set (mark_st st package dep depth).graph.levels dep (depth + 1)) = _
    rw [mark_st_levels]
  have hrea : (visit_mark_st (mark_st st package dep depth) dep depth).reaches
      = st.reaches ++ [(dep, depth + 1)] := rfl
  refine ⟨?_, ?_, ?_⟩
  · intro p
    rw [hvis, hlev]
    by_cases hp : p = dep
    · subst hp
      rw [lookupN_dict_set_self, lookupN_dict_set_self]
    · rw [lookupN_dict_set_ne _ _ _ _ hp, lookupN_dict_set_ne _ _ _ _ hp]
      exact hg.levels_eq p
  · intro e he
    rw [hrea] at he
    rw [hvis]
    rcases List.mem_append.mp he with he' | he'
    · by_cases hp : e.1 = dep
      · rw [hp, lookupN_dict_set_self]
        rcases hg.reach_lb e he' with ⟨v, hv, hvle⟩
        rw [hp] at hv
        rcases hcase with hc | ⟨v', hv', hgt⟩
        · rw [hc] at hv
          cases hv
        · rw [hv'] at hv
          cases hv
          exact ⟨depth + 1, rfl, by omega⟩
      · rw [lookupN_dict_set_ne _ _ _ _ hp]
        exact hg.reach_lb e he'
    · rw [List.mem_singleton] at he'
      subst he'
      rw [lookupN_dict_set_self]
      exact ⟨depth + 1, rfl, le_refl _⟩
  · intro p v hp
    rw [hvis] at hp
    rw [hrea]
    by_cases hpd : p = dep
    · subst hpd
      rw [lookupN_dict_set_self] at hp
      cases hp
      exact Or.inr (List.mem_append.mpr (Or.inr (List.mem_singleton.mpr rfl)))
    · rw [lookupN_dict_set_ne _ _ _ _ hpd] at hp
      rcases hg.achieved p v hp with h | h
      · exact Or.inl h
      · exact Or.inr (List.mem_append.mpr (Or.inl h))

/-- Main traversal invariant for C4: the recursion preserves `GoodLv`
and never modifies the recorded depth of any package on the current
path. -/
theorem bfs_levels_post (provider : String → Option (List String))
    (md : Int) (root : String) :
    ∀ (fuel : Nat) (package : String) (depth : Nat) (path : List String)
      (st : BuildState),
      GoodLv root st → PathInv st path → path.length = depth + 1 →
      GoodLv root (bfs_recursive provider md fuel package depth path st) ∧
      ∀ p ∈ path,
        lookupN (bfs_recursive provider md fuel package depth path st).visited_at_depth p
          = lookupN st.visited_at_depth p := by
  intro fuel
  induction fuel with
  | zero =>
    intro package depth path st hg hpi hl
    exact ⟨hg, fun p _ => rfl⟩
  | succ fuel ih =>
    intro package depth path st hg hpi hl
    rw [bfs_recursive_succ]
    split
    · exact ⟨hg, fun p _ => rfl⟩
    · cases hprov : provider package with
      | none => exact ⟨⟨hg.levels_eq, hg.reach_lb, hg.achieved⟩, fun p _ => rfl⟩
      | some deps =>
        have hfold : ∀ (l : List String) (s : BuildState),
            GoodLv root s → PathInv s path →
            GoodLv root (l.foldl
              (bfs_step
                (fun d s' =>
                  bfs_recursive provider md fuel d (depth + 1) (path ++ [d]) s')
                package depth path) s) ∧
            ∀ p ∈ path,
              lookupN ((l.foldl
                (bfs_step
                  (fun d s' =>
                    bfs_recursive provider md fuel d (depth + 1) (path ++ [d]) s')
                  package depth path) s)).visited_at_depth p
                = lookupN s.visited_at_depth p := by
          intro l
          induction l with
          | nil => intro s hgs hpis; exact ⟨hgs, fun p _ => rfl⟩
          | cons dep rest ihl =>
            intro s hgs hpis
            rw [List.foldl_cons]
            have hstep : GoodLv root
                (bfs_step
                  (fun d s' =>
                    bfs_recursive provider md fuel d (depth + 1) (path ++ [d]) s')
                  package depth path s dep) ∧
                ∀ p ∈ path,
                  lookupN (bfs_step
                    (fun d s' =>
                      bfs_recursive provider md fuel d (depth + 1) (path ++ [d]) s')
                    package depth path s dep).visited_at_depth p
                    = lookupN s.visited_at_depth p := by
              rw [bfs_step_eq]
              split
              · rename_i hdep
                obtain ⟨⟨i, hilt⟩, hget⟩ := List.mem_iff_get.mp hdep
                have hv : lookupN s.visited_at_depth dep = some i := by
                  rw [← hget]
                  exact hpis i hilt
                have hle : i ≤ depth + 1 := by
                  have : i < path.length := hilt
                  omega
                refine ⟨goodlv_cycle root _ path dep
                  (goodlv_mark_of_le root s package dep depth i hv hle hgs), ?_⟩
                intro p hp
                rw [cycle_st_visited, mark_st_visited]
              · rename_i hdep
                cases hv : lookupN s.visited_at_depth dep with
                | some v =>
                  simp only
                  split
                  · rename_i hle
                    refine ⟨goodlv_mark_of_le root s package dep depth v hv hle hgs, ?_⟩
                    intro p hp
                    rw [mark_st_visited]
                  · rename_i hgt
                    have hg2 := goodlv_recurse root s package dep depth
                      (Or.inr ⟨v, hv, by omega⟩) hgs
                    have hvis2 : (visit_mark_st (mark_st s package dep depth) dep depth).visited_at_depth
                        = dict_set s.visited_at_depth dep (depth + 1) := rfl
                    have hpi2 : PathInv
                        (visit_mark_st (mark_st s package dep depth) dep depth)
                        (path ++ [dep]) := by
                      intro j hj
                      rw [hvis2]
                      simp only [List.length_append, List.length_singleton] at hj
                      by_cases hjl : j < path.length
                      · have hgetj : (path ++ [dep]).get ⟨j, by simp; omega⟩
                            = path.get ⟨j, hjl⟩ := by
                          simp [List.get_eq_getElem, List.getElem_append_left hjl]
                        rw [hgetj]
                        have hne : path.get ⟨j, hjl⟩ ≠ dep := by
                          intro hh
                          exact hdep (hh ▸ List.get_mem path j hjl)
                        rw [lookupN_dict_set_ne _ _ _ _ hne]
                        exact hpis j hjl
                      · have hjeq : j = path.length := by omega
                        have hgetj : (path ++ [dep]).get ⟨j, by simp; omega⟩ = dep := by
                          simp [List.get_eq_getElem, hjeq]
                        rw [hgetj, lookupN_dict_set_self]
                        exact congrArg some (by omega)
                    have hlen2 : (path ++ [dep]).length = (depth + 1) + 1 := by
                      simp [hl]
                    obtain ⟨hg3, hframe3⟩ := ih dep (depth + 1) (path ++ [dep]) _ hg2 hpi2 hlen2
                    refine ⟨hg3, ?_⟩
                    intro p hp
                    rw [hframe3 p (List.mem_append.mpr (Or.inl hp)), hvis2]
                    have hne : p ≠ dep := fun hh => hdep (hh ▸ hp)
                    rw [lookupN_dict_set_ne _ _ _ _ hne]
                | none =>
                  have hg2 := goodlv_recurse root s package dep depth (Or.inl hv) hgs
                  have hvis2 : (visit_mark_st (mark_st s package dep depth) dep depth).visited_at_depth
                      = dict_set s.visited_at_depth dep (depth + 1) := rfl
                  have hpi2 : PathInv
                      (visit_mark_st (mark_st s package dep depth) dep depth)
                      (path ++ [dep]) := by
                    intro j hj
                    rw [hvis2]
                    simp only [List.length_append, List.length_singleton] at hj
                    by_cases hjl : j < path.length
                    · have hgetj : (path ++ [dep]).get ⟨j, by simp; omega⟩
                          = path.get ⟨j, hjl⟩ := by
                        simp [List.get_eq_getElem, List.getElem_append_left hjl]
                      rw [hgetj]
                      have hne : path.get ⟨j, hjl⟩ ≠ dep := by
                        intro hh
                        exact hdep (hh ▸ List.get_mem path j hjl)
                      rw [lookupN_dict_set_ne _ _ _ _ hne]
                      exact hpis j hjl
                    · have hjeq : j = path.length := by omega
                      have hgetj : (path ++ [dep]).get ⟨j, by simp; omega⟩ = dep := by
                        simp [List.get_eq_getElem, hjeq]
                      rw [hgetj, lookupN_dict_set_self]
                      exact congrArg some (by omega)
                  have hlen2 : (path ++ [dep]).length = (depth + 1) + 1 := by
                    simp [hl]
                  obtain ⟨hg3, hframe3⟩ := ih dep (depth + 1) (path ++ [dep]) _ hg2 hpi2 hlen2
                  refine ⟨hg3, ?_⟩
                  intro p hp
                  rw [hframe3 p (List.mem_append.mpr (Or.inl hp)), hvis2]
                  have hne : p ≠ dep := fun hh => hdep (hh ▸ hp)
                  rw [lookupN_dict_set_ne _ _ _ _ hne]
            have hpi' : PathInv
                (bfs_step
                  (fun d s' =>
                    bfs_recursive provider md fuel d (depth + 1) (path ++ [d]) s')
                  package depth path s dep) path := by
              intro j hj
              rw [hstep.2 _ (List.get_mem path j hj)]
              exact hpis j hj
            obtain ⟨hg4, hframe4⟩ := ihl _ hstep.1 hpi'
            refine ⟨hg4, ?_⟩
            intro p hp
            rw [hframe4 p hp, hstep.2 p hp]
        exact hfold deps
          { st with queried := st.queried ++ [(package, depth)] }
          ⟨hg.levels_eq, hg.reach_lb, hg.achieved⟩
          (fun j hj => hpi j hj)

/-- C4: in every completed run, the root's level is 0, `levels` agrees
with the reachable-set map, and every other discovered package's level
is a reach depth that is minimal among all depths at which any
traversal path reached that package during the run. -/
theorem claim_C4_levels_minimal (provider : String → Option (List String))
    (max_depth : Int) (root : String) :
    lookupN (build_graph_run provider max_depth root).graph.levels root = some 0 ∧
    (∀ p, lookupN (build_graph_run provider max_depth root).graph.levels p
        = lookupN (build_graph_run provider max_depth root).visited_at_depth p) ∧
    (∀ p v,
      lookupN (build_graph_run provider max_depth root).graph.levels p = some v →
      p ≠ root →
      (p, v) ∈ (build_graph_run provider max_depth root).reaches ∧
      ∀ e ∈ (build_graph_run provider max_depth root).reaches, e.1 = p → v ≤ e.2) := by
  have hst0 : GoodLv root
      { graph := { root_package := root, graph := [], visited := [],
                   cycles := [], levels := [(root, 0)] },
        visited_at_depth := [(root, 0)], reaches := [], queried := [] } := by
    refine ⟨fun p => rfl, ?_, ?_⟩
    · intro e he
      cases he
    · intro p v hp
      by_cases hr : root = p
      · subst hr
        left
        refine ⟨rfl, ?_⟩
        simpa [lookupN] using hp.symm
      · rw [show lookupN [(root, 0)] p = none by simp [lookupN, hr]] at hp
        cases hp
  have hpi0 : PathInv
      { graph := { root_package := root, graph := [], visited := [],
                   cycles := [], levels := [(root, 0)] },
        visited_at_depth := [(root, 0)], reaches := [], queried := [] }
      [root] := by
    intro i hi
    simp only [List.length_singleton] at hi
    have hi0 : i = 0 := by omega
    subst hi0
    simp [lookupN, List.get]
  obtain ⟨hgfin, hframe⟩ := bfs_levels_post provider max_depth root
    (max_depth.toNat + 1) root 0 [root]
    { graph := { root_package := root, graph := [], visited := [],
                 cycles := [], levels := [(root, 0)] },
      visited_at_depth := [(root, 0)], reaches := [], queried := [] }
    hst0 hpi0 (by simp)
  have hframe_root := hframe root (List.mem_singleton.mpr rfl)
  refine ⟨?_, ?_, ?_⟩
  · show lookupN (bfs_recursive provider max_depth (max_depth.toNat + 1) root 0 [root] _).graph.levels root = some 0
    rw [hgfin.levels_eq root, hframe_root]
    simp [lookupN]
  · intro p
    exact hgfin.levels_eq p
  · intro p v hlev hne
    have hvis : lookupN (bfs_recursive provider max_depth (max_depth.toNat + 1)
        root 0 [root]
        { graph := { root_package := root, graph := [], visited := [],
                     cycles := [], levels := [(root, 0)] },
          visited_at_depth := [(root, 0)], reaches := [], queried := [] }).visited_at_depth p
        = some v := by
      rw [← hgfin.levels_eq p]
      exact hlev
    constructor
    · rcases hgfin.achieved p v hvis with h | h
      · exact absurd h.1 hne
      · exact h
    · intro e he hep
      rcases hgfin.reach_lb e he with ⟨v', hv', hle⟩
      rw [hep, hvis] at hv'
      cases hv'
      exact hle

/-! ### `build_indices` characterization -/

theorem bi_inner_deg (deps : List String) :
    ∀ (acc : (String → List String) × (String → Int)) (src q : String),
      ((deps.foldl (fun a dep => bi_step a src dep) acc).2 q)
        = acc.2 q + (if q = src then (deps.length : Int) else 0) := by
  induction deps with
  | nil => intro acc src q; simp
  | cons d rest ih =>
    intro acc src q
    rw [List.foldl_cons, ih]
    show (if q = src then acc.2 q + 1 else acc.2 q) + _ = _
    by_cases hq : q = src
    · simp only [hq, if_pos rfl, List.length_cons]
      push_cast
      ring
    · simp [hq]


theorem bi_inner_rg (deps : List String) :
    ∀ (acc : (String → List String) × (String → Int)) (src d q : String),
      (((deps.foldl (fun a dep => bi_step a src dep) acc).1 d).count q)
        = ((acc.1 d).count q) + (if q = src then deps.count d else 0) := by
  induction deps with
  | nil => intro acc src d q; simp
  | cons dd rest ih =>
    intro acc src d q
    rw [List.foldl_cons, ih]
    have hstep : ((bi_step acc src dd).1 d).count q
        = (acc.1 d).count q + (if d = dd then (if q = src then 1 else 0) else 0) := by
      show ((if d = dd then acc.1 d ++ [src] else acc.1 d).count q) = _
      by_cases hd : d = dd
      · rw [if_pos hd, if_pos hd, List.count_append]
        have hsing : List.count q [src] = if q = src then 1 else 0 := by
          by_cases hq : q = src
          · rw [if_pos hq, hq]
            simp
          · rw [if_neg hq]
            have hq' : ¬ src = q := fun hh => hq hh.symm
            simp [List.count_singleton, hq']
        rw [hsing]
      · rw [if_neg hd, if_neg hd]
        omega
    rw [hstep, List.count_cons]
    have hcnt : (if (dd == d) = true then 1 else 0) = if d = dd then 1 else 0 := by
      by_cases hd : d = dd
      · rw [if_pos hd, if_pos (by simp [hd])]
      · rw [if_neg hd, if_neg]
        intro hb
        exact hd (eq_of_beq hb).symm
    rw [hcnt]
    split_ifs <;> omega


theorem build_indices_deg (edges : List (String × List String)) (q : String) :
    (build_indices edges).2 q
      = ((edges.filter (fun e => e.1 = q)).map (fun e => (e.2.length : Int))).sum := by
  suffices h : ∀ (acc : (String → List String) × (String → Int)),
      (edges.foldl bi_entry acc).2 q
        = acc.2 q
          + ((edges.filter (fun e => e.1 = q)).map (fun e => (e.2.length : Int))).sum by
    have := h (fun _ => [], fun _ => 0)
    simpa [build_indices] using this
  induction edges with
  | nil => intro acc; simp
  | cons e rest ih =>
    intro acc
    rw [List.foldl_cons, ih]
    have hentry : (bi_entry acc e).2 q
        = acc.2 q + (if q = e.1 then (e.2.length : Int) else 0) :=
      bi_inner_deg e.2 acc e.1 q
    rw [hentry, List.filter_cons]
    simp only [decide_eq_true_eq]
    by_cases he : e.1 = q
    · rw [if_pos he, if_pos he.symm, List.map_cons, List.sum_cons]
      ring
    · rw [if_neg he, if_neg (fun hh => he hh.symm)]
      ring


theorem build_indices_rg (edges : List (String × List String)) (d q : String) :
    ((build_indices edges).1 d).count q
      = ((edges.filter (fun e => e.1 = q)).map (fun e => e.2.count d)).sum := by
  suffices h : ∀ (acc : (String → List String) × (String → Int)),
      ((edges.foldl bi_entry acc).1 d).count q
        = (acc.1 d).count q
          + ((edges.filter (fun e => e.1 = q)).map (fun e => e.2.count d)).sum by
    have := h (fun _ => [], fun _ => 0)
    simpa [build_indices] using this
  induction edges with
  | nil => intro acc; simp
  | cons e rest ih =>
    intro acc
    rw [List.foldl_cons, ih]
    have hentry : ((bi_entry acc e).1 d).count q
        = (acc.1 d).count q + (if q = e.1 then e.2.count d else 0) :=
      bi_inner_rg e.2 acc e.1 d q
    rw [hentry, List.filter_cons]
    simp only [decide_eq_true_eq]
    by_cases he : e.1 = q
    · rw [if_pos he, if_pos he.symm, List.map_cons, List.sum_cons]
      omega
    · rw [if_neg he, if_neg (fun hh => he hh.symm)]
      omega

theorem filter_key_of_not_mem (edges : List (String × List String)) (q : String)
    (h : q ∉ edges.map Prod.fst) : edges.filter (fun e => e.1 = q) = [] := by
  induction edges with
  | nil => rfl
  | cons e rest ih =>
    simp only [List.map_cons, List.mem_cons] at h
    push_neg at h
    have he : ¬ e.1 = q := fun hh => h.1 hh.symm
    rw [List.filter_cons]
    simp only [decide_eq_true_eq]
    rw [if_neg he]
    exact ih h.2

theorem filter_key_of_lookup (edges : List (String × List String))
    (hk : (edges.map Prod.fst).Nodup) (q : String) (deps : List String)
    (hl : lookupN edges q = some deps) :
    edges.filter (fun e => e.1 = q) = [(q, deps)] := by
  induction edges with
  | nil => cases hl
  | cons e rest ih =>
    rcases e with ⟨a, b⟩
    simp only [List.map_cons, List.nodup_cons] at hk
    by_cases ha : a = q
    · subst ha
      have hb : b = deps := by simpa [lookupN] using hl
      subst hb
      rw [List.filter_cons]
      simp only [decide_eq_true_eq, if_true]
      rw [filter_key_of_not_mem rest a hk.1]
    · simp only [lookupN, if_neg ha] at hl
      rw [List.filter_cons]
      simp only [decide_eq_true_eq]
      rw [if_neg ha]
      exact ih hk.2 hl

/-- Under unique keys, `in_degree p` is exactly the number of recorded
dependencies of `p`. -/
theorem in_degree_eq (g : DependencyGraph)
    (hk : (g.graph.map Prod.fst).Nodup) (q : String) :
    (build_indices g.graph).2 q = ((get_dependencies g q).length : Int) := by
  rw [build_indices_deg]
  cases hl : lookupN g.graph q with
  | none =>
    rw [filter_key_of_not_mem g.graph q ((lookupN_eq_none_iff _ _).mp hl)]
    simp [get_dependencies, hl]
  | some deps =>
    rw [filter_key_of_lookup g.graph hk q deps hl]
    simp [get_dependencies, hl]

/-- Under unique keys, `reverse_graph d` holds `q` with multiplicity
equal to the multiplicity of `d` in `q`'s dependency list. -/
theorem rg_count_eq (g : DependencyGraph)
    (hk : (g.graph.map Prod.fst).Nodup) (d q : String) :
    ((build_indices g.graph).1 d).count q = (get_dependencies g q).count d := by
  rw [build_indices_rg]
  cases hl : lookupN g.graph q with
  | none =>
    rw [filter_key_of_not_mem g.graph q ((lookupN_eq_none_iff _ _).mp hl)]
    simp [get_dependencies, hl]
  | some deps =>
    rw [filter_key_of_lookup g.graph hk q deps hl]
    simp [get_dependencies, hl]

/-! ### `process_dependents` and `process_pkgs` characterization -/

theorem pd_fields (l : List String) : ∀ st : KahnState,
    (process_dependents l st).load_order = st.load_order ∧
    (process_dependents l st).levels_dict = st.levels_dict ∧
    (process_dependents l st).current_level = st.current_level := by
  induction l with
  | nil => intro st; exact ⟨rfl, rfl, rfl⟩
  | cons x rest ih =>
    intro st
    rw [process_dependents]
    split
    · exact ih _
    · exact ih _

theorem pd_in_degree (l : List String) : ∀ (st : KahnState) (q : String),
    (process_dependents l st).in_degree q = st.in_degree q - (l.count q : Int) := by
  induction l with
  | nil => intro st q; simp [process_dependents]
  | cons x rest ih =>
    intro st q
    rw [process_dependents]
    have hkey : ∀ st1 : KahnState,
        st1.in_degree = (fun y => if y = x then st.in_degree x - 1 else st.in_degree y) →
        (process_dependents rest st1).in_degree q
          = st.in_degree q - ((x :: rest).count q : Int) := by
      intro st1 h1
      rw [ih st1 q, h1]
      have hb : (fun y => if y = x then st.in_degree x - 1 else st.in_degree y) q
          = if q = x then st.in_degree x - 1 else st.in_degree q := rfl
      rw [hb, List.count_cons]
      by_cases hq : q = x
      · subst hq
        rw [if_pos rfl]
        simp only [beq_self_eq_true, if_true]
        push_cast
        ring
      · rw [if_neg hq, if_neg (fun hb2 => hq (eq_of_beq hb2).symm)]
        push_cast
        ring
    split
    · exact hkey _ rfl
    · exact hkey _ rfl

theorem pd_queue (l : List String) : ∀ st : KahnState,
    ∃ extra, (process_dependents l st).queue = st.queue ++ extra ∧
      ∀ q, (extra.count q : Int)
        = if 0 < st.in_degree q ∧ st.in_degree q ≤ (l.count q : Int) then 1 else 0 := by
  induction l with
  | nil =>
    intro st
    refine ⟨[], by simp [process_dependents], ?_⟩
    intro q
    rw [if_neg]
    · simp
    · rintro ⟨h1, h2⟩
      simp at h2
      omega
  | cons x rest ih =>
    intro st
    rw [process_dependents]
    split
    · rename_i hv
      obtain ⟨extra2, hq2, hc2⟩ := ih _
      refine ⟨x :: extra2, ?_, ?_⟩
      · rw [hq2]
        simp
      · intro q
        by_cases hqx : q = x
        · subst hqx
          have h2 : ((extra2.count q : Int))
              = if 0 < st.in_degree q - 1 ∧ st.in_degree q - 1 ≤ (rest.count q : Int)
                then 1 else 0 := by
            simpa using hc2 q
          simp only [List.count_cons, beq_self_eq_true, if_true]
          push_cast
          split_ifs at h2 ⊢ <;> omega
        · have hbx : ¬ (x == q) = true := fun hb => hqx (eq_of_beq hb).symm
          have h2 : ((extra2.count q : Int))
              = if 0 < st.in_degree q ∧ st.in_degree q ≤ (rest.count q : Int)
                then 1 else 0 := by
            simpa [hqx] using hc2 q
          simp only [List.count_cons, hbx, if_false]
          push_cast
          split_ifs at h2 ⊢ <;> omega
    · rename_i hv
      obtain ⟨extra2, hq2, hc2⟩ := ih _
      refine ⟨extra2, hq2, ?_⟩
      intro q
      by_cases hqx : q = x
      · subst hqx
        have h2 : ((extra2.count q : Int))
            = if 0 < st.in_degree q - 1 ∧ st.in_degree q - 1 ≤ (rest.count q : Int)
              then 1 else 0 := by
          simpa using hc2 q
        simp only [List.count_cons, beq_self_eq_true, if_true]
        push_cast
        split_ifs at h2 ⊢ <;> omega
      · have hbx : ¬ (x == q) = true := fun hb => hqx (eq_of_beq hb).symm
        have h2 : ((extra2.count q : Int))
            = if 0 < st.in_degree q ∧ st.in_degree q ≤ (rest.count q : Int)
              then 1 else 0 := by
          simpa [hqx] using hc2 q
        simp only [List.count_cons, hbx, if_false]
        push_cast
        split_ifs at h2 ⊢ <;> omega

theorem pp_load_order (rg : String → List String) (l : List String) :
    ∀ st : KahnState, (process_pkgs rg l st).load_order = st.load_order ++ l := by
  induction l with
  | nil => intro st; simp [process_pkgs]
  | cons p rest ih =>
    intro st
    rw [process_pkgs, ih, (pd_fields (rg p) _).1]
    simp

theorem pp_fields (rg : String → List String) (l : List String) :
    ∀ st : KahnState,
      (process_pkgs rg l st).levels_dict = st.levels_dict ∧
      (process_pkgs rg l st).current_level = st.current_level := by
  induction l with
  | nil => intro st; exact ⟨rfl, rfl⟩
  | cons p rest ih =>
    intro st
    rw [process_pkgs]
    obtain ⟨h1, h2⟩ := ih (process_dependents (rg p) { st with load_order := st.load_order ++ [p] })
    obtain ⟨g1, g2, g3⟩ := pd_fields (rg p) { st with load_order := st.load_order ++ [p] }
    exact ⟨by rw [h1, g2], by rw [h2, g3]⟩

/-- Splitting off the occurrences of a fresh package from a
not-yet-loaded filter. -/
theorem filter_length_append_one (deps lo : List String) (p : String)
    (hp : p ∉ lo) :
    ((deps.filter (fun d => ¬ d ∈ lo)).length : Int)
      = ((deps.filter (fun d => ¬ d ∈ (lo ++ [p]))).length : Int)
        + deps.count p := by
  induction deps with
  | nil => simp
  | cons d rest ih =>
    rw [List.count_cons, List.filter_cons, List.filter_cons]
    simp only [decide_eq_true_eq]
    by_cases hdlo : d ∈ lo
    · have hdp : ¬ (d == p) = true := by
        intro hb
        exact hp ((eq_of_beq hb) ▸ hdlo)
      rw [if_neg (not_not_intro hdlo),
        if_neg (not_not_intro (List.mem_append.mpr (Or.inl hdlo))), if_neg hdp]
      push_cast at ih ⊢
      omega
    · by_cases hdp : d = p
      · have hb : (d == p) = true := beq_iff_eq.mpr hdp
        rw [if_pos (fun h => hdlo h),
          if_neg (not_not_intro
            (List.mem_append.mpr (Or.inr (List.mem_singleton.mpr hdp)))),
          if_pos hb, List.length_cons]
        push_cast at ih ⊢
        omega
      · have hb : ¬ (d == p) = true := fun hb => hdp (eq_of_beq hb)
        have h2 : ¬ d ∈ lo ++ [p] := by
          intro h
          rcases List.mem_append.mp h with h' | h'
          · exact hdlo h'
          · exact hdp (List.mem_singleton.mp h')
        rw [if_pos (fun h => hdlo h), if_pos h2, if_neg hb,
          List.length_cons, List.length_cons]
        push_cast at ih ⊢
        omega

theorem take_append_le {α : Type} (l1 l2 : List α) (i : Nat) (h : i ≤ l1.length) :
    (l1 ++ l2).take i = l1.take i := by
  induction l1 generalizing i with
  | nil =>
    simp only [List.length_nil, Nat.le_zero] at h
    simp [h]
  | cons a rest ih =>
    cases i with
    | zero => simp
    | succ n =>
      simp only [List.cons_append, List.take_succ_cons]
      rw [ih n (by simpa using h)]

/-- One package step of a round: appending the ready package `p` to the
linear order and decrementing its dependents preserves the mid-round
invariant. -/
theorem kmid_step (g : DependencyGraph) (all_pkgs : List String)
    (hk : (g.graph.map Prod.fst).Nodup)
    (hcov : ∀ e ∈ g.graph, e.1 ∈ all_pkgs ∧ ∀ d ∈ e.2, d ∈ all_pkgs)
    (p : String) (l : List String) (st : KahnState)
    (hmid : KMid g all_pkgs (p :: l) st) :
    KMid g all_pkgs l
      (process_dependents ((build_indices g.graph).1 p)
        { st with load_order := st.load_order ++ [p] }) := by
  obtain ⟨m1, m2, m3, m4, m5, m6, m7⟩ := hmid
  have hpmid : p ∈ (p :: l) ++ st.queue := List.mem_append.mpr (Or.inl (List.mem_cons_self _ _))
  have hm1' : st.load_order.Nodup ∧ ((p :: l) ++ st.queue).Nodup ∧
      st.load_order.Disjoint ((p :: l) ++ st.queue) := by
    rw [List.append_assoc] at m1
    exact List.nodup_append.mp m1
  have hpnotlo : p ∉ st.load_order := fun hp => hm1'.2.2 hp hpmid
  have hmidnodup : (p :: (l ++ st.queue)).Nodup := by
    simpa using hm1'.2.1
  have hpnotl : p ∉ l := fun hp =>
    (List.nodup_cons.mp hmidnodup).1 (List.mem_append.mpr (Or.inl hp))
  have hpnotQ : p ∉ st.queue := fun hp =>
    (List.nodup_cons.mp hmidnodup).1 (List.mem_append.mpr (Or.inr hp))
  have hdepP : ∀ d ∈ get_dependencies g p, d ∈ st.load_order :=
    m4 p (List.mem_cons_self _ _)
  have hBlo : (process_dependents ((build_indices g.graph).1 p)
      { st with load_order := st.load_order ++ [p] }).load_order
      = st.load_order ++ [p] :=
    (pd_fields _ _).1
  have hdeg : ∀ q, (process_dependents ((build_indices g.graph).1 p)
      { st with load_order := st.load_order ++ [p] }).in_degree q
      = st.in_degree q - ((get_dependencies g q).count p : Int) := by
    intro q
    rw [pd_in_degree, rg_count_eq g hk p q]
  have hdeg2 : ∀ q, (process_dependents ((build_indices g.graph).1 p)
      { st with load_order := st.load_order ++ [p] }).in_degree q
      = (((get_dependencies g q).filter
          (fun d => ¬ d ∈ (st.load_order ++ [p]))).length : Int) := by
    intro q
    rw [hdeg q, m3 q, filter_length_append_one _ _ p hpnotlo]
    ring
  obtain ⟨extra, hqB, hcount⟩ := pd_queue ((build_indices g.graph).1 p)
    { st with load_order := st.load_order ++ [p] }
  have hcount' : ∀ q, (extra.count q : Int)
      = if 0 < st.in_degree q ∧
          st.in_degree q ≤ ((get_dependencies g q).count p : Int)
        then 1 else 0 := by
    intro q
    rw [hcount q, rg_count_eq g hk p q]
  have hfilter_ge : ∀ q, ((get_dependencies g q).count p : Int)
      ≤ (((get_dependencies g q).filter
          (fun d => ¬ d ∈ st.load_order)).length : Int) := by
    intro q
    rw [filter_length_append_one _ _ p hpnotlo]
    have : (0 : Int) ≤ (((get_dependencies g q).filter
        (fun d => ¬ d ∈ (st.load_order ++ [p]))).length : Int) := Int.natCast_nonneg _
    omega
  have hloaded_deps : ∀ q ∈ st.load_order, ∀ d ∈ get_dependencies g q,
      d ∈ st.load_order := by
    intro q hq d hd
    obtain ⟨⟨i, hi⟩, hget⟩ := List.mem_iff_get.mp hq
    have := m7 i hi d (by rw [hget]; exact hd)
    exact List.take_subset _ _ this
  have hready_zero : ∀ q, (∀ d ∈ get_dependencies g q, d ∈ st.load_order) →
      st.in_degree q = 0 := by
    intro q hq
    rw [m3 q]
    have : (get_dependencies g q).filter (fun d => ¬ d ∈ st.load_order) = [] := by
      rw [List.filter_eq_nil_iff]
      intro a ha
      simp only [decide_eq_true_eq, Decidable.not_not]
      exact hq a ha
    rw [this]
    rfl
  have hextra_mem : ∀ q ∈ extra, 0 < st.in_degree q ∧
      st.in_degree q = ((get_dependencies g q).count p : Int) := by
    intro q hq
    have hc := hcount' q
    have hpos : 0 < extra.count q := List.count_pos_iff.mpr hq
    by_cases hcond : 0 < st.in_degree q ∧
        st.in_degree q ≤ ((get_dependencies g q).count p : Int)
    · refine ⟨hcond.1, ?_⟩
      have := hfilter_ge q
      rw [← m3 q] at this
      omega
    · rw [if_neg hcond] at hc
      omega
  have hextra_ready : ∀ q ∈ extra, ∀ d ∈ get_dependencies g q,
      d ∈ st.load_order ++ [p] := by
    intro q hq d hd
    have h0 : (process_dependents ((build_indices g.graph).1 p)
        { st with load_order := st.load_order ++ [p] }).in_degree q = 0 := by
      rw [hdeg q]
      have := (hextra_mem q hq).2
      omega
    rw [hdeg2 q] at h0
    have hnil : (get_dependencies g q).filter
        (fun d => ¬ d ∈ (st.load_order ++ [p])) = [] := by
      have := List.length_eq_zero.mp (by exact_mod_cast h0)
      exact this
    have := List.filter_eq_nil_iff.mp hnil d hd
    simp only [decide_eq_true_eq, Decidable.not_not] at this
    exact this
  have hextra_not_placed : ∀ q ∈ extra,
      q ∉ st.load_order ∧ q ∉ (p :: l) ∧ q ∉ st.queue := by
    intro q hq
    have hqpos := (hextra_mem q hq).1
    refine ⟨fun hmem => ?_, fun hmem => ?_, fun hmem => ?_⟩
    · have := hready_zero q (hloaded_deps q hmem)
      omega
    · have := hready_zero q (m4 q hmem)
      omega
    · have := hready_zero q (m5 q hmem)
      omega
  have hextra_all : ∀ q ∈ extra, q ∈ all_pkgs := by
    intro q hq
    have hqpos := (hextra_mem q hq).1
    have hne : get_dependencies g q ≠ [] := by
      intro h0
      rw [m3 q, h0] at hqpos
      simp at hqpos
    cases hlk : lookupN g.graph q with
    | none =>
      exact absurd (by simp [get_dependencies, hlk]) hne
    | some deps' =>
      exact (hcov _ (lookupN_mem _ _ _ hlk)).1
  have hextra_nodup : extra.Nodup := by
    rw [List.nodup_iff_count_le_one]
    intro a
    have := hcount' a
    split_ifs at this <;> omega
  refine ⟨?_, ?_, ?_, ?_, ?_, ?_, ?_⟩
  · rw [hBlo, hqB]
    have hdisj : (st.load_order ++ (p :: l) ++ st.queue).Disjoint extra := by
      intro a ha ha'
      obtain ⟨h1, h2, h3⟩ := hextra_not_placed a ha'
      rcases List.mem_append.mp ha with h | h
      · rcases List.mem_append.mp h with h' | h'
        · exact h1 h'
        · exact h2 h'
      · exact h3 h
    have := List.Nodup.append m1 hextra_nodup hdisj
    have hperm : st.load_order ++ (p :: l) ++ st.queue ++ extra
        = (st.load_order ++ [p]) ++ (l ++ ({ st with
            load_order := st.load_order ++ [p] }.queue ++ extra)) := by
      simp [List.append_assoc]
    rw [← List.append_assoc]
    simpa [List.append_assoc] using this
  · intro a ha
    rw [hBlo, hqB] at ha
    rcases List.mem_append.mp ha with h1 | h1
    · rcases List.mem_append.mp h1 with h2 | h2
      · rcases List.mem_append.mp h2 with h3 | h3
        · exact m2 a (List.mem_append.mpr (Or.inl (List.mem_append.mpr (Or.inl h3))))
        · rw [List.mem_singleton] at h3
          subst h3
          exact m2 a (List.mem_append.mpr (Or.inl (List.mem_append.mpr
            (Or.inr (List.mem_cons_self _ _)))))
      · exact m2 a (List.mem_append.mpr (Or.inl (List.mem_append.mpr
          (Or.inr (List.mem_cons_of_mem _ h2)))))
    · rcases List.mem_append.mp h1 with h2 | h2
      · exact m2 a (List.mem_append.mpr (Or.inr h2))
      · exact hextra_all a h2
  · intro q
    rw [hBlo]
    exact hdeg2 q
  · intro q hq d hd
    rw [hBlo]
    exact List.mem_append.mpr (Or.inl (m4 q (List.mem_cons_of_mem _ hq) d hd))
  · intro q hq d hd
    rw [hqB] at hq
    rw [hBlo]
    rcases List.mem_append.mp hq with hq' | hq'
    · exact List.mem_append.mpr (Or.inl (m5 q hq' d hd))
    · exact hextra_ready q hq' d hd
  · intro q hq h0
    rw [hdeg q] at h0
    rw [hBlo, hqB]
    have hnn : 0 ≤ st.in_degree q := by
      rw [m3 q]
      exact Int.natCast_nonneg _
    by_cases hz : st.in_degree q = 0
    · rcases m6 q hq hz with h | h | h
      · exact Or.inl (List.mem_append.mpr (Or.inl h))
      · rcases List.mem_cons.mp h with h' | h'
        · subst h'
          exact Or.inl (List.mem_append.mpr (Or.inr (List.mem_singleton.mpr rfl)))
        · exact Or.inr (Or.inl h')
      · exact Or.inr (Or.inr (List.mem_append.mpr (Or.inl h)))
    · have hqe : q ∈ extra := by
        have hc := hcount' q
        rw [if_pos ⟨by omega, by omega⟩] at hc
        have : 0 < extra.count q := by exact_mod_cast (by omega : (0 : Int) < (extra.count q : Int))
        exact List.count_pos_iff.mp this
      exact Or.inr (Or.inr (List.mem_append.mpr (Or.inr hqe)))
  · rw [hBlo]
    intro i h d hd
    simp only [List.length_append, List.length_singleton] at h
    by_cases hi : i < st.load_order.length
    · have hget : (st.load_order ++ [p]).get ⟨i, by simp; omega⟩
          = st.load_order.get ⟨i, hi⟩ := by
        simp [List.get_eq_getElem, List.getElem_append_left hi]
      rw [hget] at hd
      have := m7 i hi d hd
      rw [take_append_le _ _ i (Nat.le_of_lt hi)]
      exact this
    · have hieq : i = st.load_order.length := by omega
      have hget : (st.load_order ++ [p]).get ⟨i, by simp; omega⟩ = p := by
        simp [List.get_eq_getElem, hieq]
      rw [hget] at hd
      rw [hieq, List.take_left]
      exact hdepP d hd

theorem kmid_round (g : DependencyGraph) (all_pkgs : List String)
    (hk : (g.graph.map Prod.fst).Nodup)
    (hcov : ∀ e ∈ g.graph, e.1 ∈ all_pkgs ∧ ∀ d ∈ e.2, d ∈ all_pkgs) :
    ∀ (l : List String) (st : KahnState), KMid g all_pkgs l st →
      KMid g all_pkgs [] (process_pkgs (build_indices g.graph).1 l st) := by
  intro l
  induction l with
  | nil => intro st h; exact h
  | cons p rest ih =>
    intro st h
    rw [process_pkgs]
    exact ih _ (kmid_step g all_pkgs hk hcov p rest st h)

theorem kinv_to_kmid (g : DependencyGraph) (all_pkgs : List String)
    (st : KahnState) (h : KInv g all_pkgs st) (ld : List (Nat × List String)) :
    KMid g all_pkgs st.queue
      { st with queue := [], levels_dict := ld } := by
  obtain ⟨a, b, c, d, e, f⟩ := h
  refine ⟨?_, ?_, c, d, ?_, ?_, f⟩
  · simpa using a
  · intro p hp
    refine b p ?_
    simpa using hp
  · intro p hp
    cases hp
  · intro p hp h0
    rcases e p hp h0 with h | h
    · exact Or.inl h
    · exact Or.inr (Or.inl h)

theorem kmid_nil_to_kinv (g : DependencyGraph) (all_pkgs : List String)
    (st : KahnState) (h : KMid g all_pkgs [] st) : KInv g all_pkgs st := by
  obtain ⟨a, b, c, d, e, f, k⟩ := h
  refine ⟨by simpa using a, ?_, c, e, ?_, k⟩
  · intro p hp
    refine b p ?_
    simpa using hp
  · intro p hp h0
    rcases f p hp h0 with h | h | h
    · exact Or.inl h
    · cases h
    · exact Or.inr h

theorem kahn_loop_post (g : DependencyGraph) (all_pkgs : List String)
    (hk : (g.graph.map Prod.fst).Nodup)
    (hcov : ∀ e ∈ g.graph, e.1 ∈ all_pkgs ∧ ∀ d ∈ e.2, d ∈ all_pkgs) :
    ∀ (fuel : Nat) (st : KahnState), KInv g all_pkgs st →
      all_pkgs.length + 1 ≤ st.load_order.length + fuel →
      KInv g all_pkgs (kahn_loop (build_indices g.graph).1 fuel st) ∧
      (kahn_loop (build_indices g.graph).1 fuel st).queue = [] ∧
      ∃ ext, (kahn_loop (build_indices g.graph).1 fuel st).load_order
        = st.load_order ++ ext := by
  intro fuel
  induction fuel with
  | zero =>
    intro st hinv hlen
    exfalso
    obtain ⟨a, b, _, _, _, _⟩ := hinv
    have hsub : st.load_order.length ≤ all_pkgs.length := by
      have hnd : st.load_order.Nodup := ((List.nodup_append).mp a).1
      have hss : st.load_order ⊆ all_pkgs := fun x hx =>
        b x (List.mem_append.mpr (Or.inl hx))
      exact List.Subperm.length_le (List.Nodup.subperm hnd hss)
    omega
  | succ fuel ih =>
    intro st hinv hlen
    rw [kahn_loop]
    split
    · rename_i hemp
      refine ⟨hinv, ?_, [], by simp⟩
      simpa using hemp
    · rename_i hne
      have hqne : st.queue ≠ [] := by
        intro h0
        exact hne (by simp [h0])
      set st0 : KahnState := { st with queue := [], levels_dict := st.levels_dict ++ [(st.current_level, st.queue)] } with hst0
      have hmid := kinv_to_kmid g all_pkgs st hinv
        (st.levels_dict ++ [(st.current_level, st.queue)])
      have hmid2 := kmid_round g all_pkgs hk hcov st.queue st0 hmid
      have hinv1 : KInv g all_pkgs
          (process_pkgs (build_indices g.graph).1 st.queue st0) :=
        kmid_nil_to_kinv g all_pkgs _ hmid2
      have hlo1 : (process_pkgs (build_indices g.graph).1 st.queue st0).load_order
          = st.load_order ++ st.queue := by
        rw [pp_load_order]
      have hlen1 : all_pkgs.length + 1
          ≤ (process_pkgs (build_indices g.graph).1 st.queue st0).load_order.length
            + fuel := by
        rw [hlo1]
        have : 1 ≤ st.queue.length := by
          cases hq : st.queue with
          | nil => exact absurd hq hqne
          | cons x xs => simp
        simp only [List.length_append]
        omega
      set st1 : KahnState := process_pkgs (build_indices g.graph).1 st.queue st0 with hst1
      set st2 : KahnState := { st1 with current_level := st1.current_level + 1 } with hst2
      have hinv2 : KInv g all_pkgs st2 := by
        obtain ⟨a, b, c, d, e, f⟩ := hinv1
        exact ⟨a, b, c, d, e, f⟩
      have hlo2 : st2.load_order = st.load_order ++ st.queue := hlo1
      have hlen2 : all_pkgs.length + 1 ≤ st2.load_order.length + fuel := hlen1
      obtain ⟨hA, hB, ext, hC⟩ := ih st2 hinv2 hlen2
      have hgoal : (kahn_loop (build_indices g.graph).1 fuel st2).load_order
          = st.load_order ++ (st.queue ++ ext) := by
        rw [hC, hlo2, List.append_assoc]
      exact ⟨hA, hB, st.queue ++ ext, hgoal⟩

theorem calculate_load_order_eq (g : DependencyGraph) (all_pkgs : List String) :
    calculate_load_order g all_pkgs =
      { order := (kahn_final g all_pkgs).load_order
        levels := (kahn_final g all_pkgs).levels_dict
        has_cycles := decide (0 < (all_pkgs.filter
          (fun p => 0 < (kahn_final g all_pkgs).in_degree p)).length)
        unresolved := all_pkgs.filter
          (fun p => 0 < (kahn_final g all_pkgs).in_degree p) } := rfl

theorem kinv_init (g : DependencyGraph) (all_pkgs : List String)
    (hk : (g.graph.map Prod.fst).Nodup) (hnd : all_pkgs.Nodup)
    (hcov : ∀ e ∈ g.graph, e.1 ∈ all_pkgs ∧ ∀ d ∈ e.2, d ∈ all_pkgs) :
    KInv g all_pkgs
      { in_degree := (build_indices g.graph).2,
        queue := all_pkgs.filter (fun p => (build_indices g.graph).2 p = 0),
        load_order := [], levels_dict := [], current_level := 0 } := by
  have hdeg0 : ∀ q, (build_indices g.graph).2 q
      = ((get_dependencies g q).length : Int) := in_degree_eq g hk
  refine ⟨?_, ?_, ?_, ?_, ?_, ?_⟩
  · simpa using List.Nodup.filter _ hnd
  · intro p hp
    simp only [List.nil_append] at hp
    exact (List.mem_filter.mp hp).1
  · intro q
    show (build_indices g.graph).2 q = _
    rw [hdeg0 q]
    congr 1
    have : (get_dependencies g q).filter (fun d => ¬ d ∈ ([] : List String))
        = get_dependencies g q := by
      rw [List.filter_eq_self]
      intro a _
      simp
    rw [this]
  · intro p hp d hd
    have h0 := (List.mem_filter.mp hp).2
    simp only [decide_eq_true_eq] at h0
    rw [hdeg0 p] at h0
    have : get_dependencies g p = [] :=
      List.length_eq_zero.mp (by exact_mod_cast h0)
    rw [this] at hd
    cases hd
  · intro p hp h0
    refine Or.inr (List.mem_filter.mpr ⟨hp, ?_⟩)
    simpa using h0
  · intro i h
    simp at h

theorem loaded_closed (g : DependencyGraph) (lo : List String)
    (hf : ∀ i (h : i < lo.length),
      ∀ d ∈ get_dependencies g (lo.get ⟨i, h⟩), d ∈ lo.take i) :
    ∀ q ∈ lo, ∀ d ∈ get_dependencies g q, d ∈ lo := by
  intro q hq d hd
  obtain ⟨⟨i, hi⟩, hget⟩ := List.mem_iff_get.mp hq
  have := hf i hi d (by rw [hget]; exact hd)
  exact List.take_subset _ _ this

theorem valid_enum_mem_iff (g : DependencyGraph) (all_pkgs : List String)
    (hval : valid_enum g all_pkgs) (p : String) :
    p ∈ all_pkgs ↔ all_packages_mem g p = true := by
  obtain ⟨_, hmem, hcov⟩ := hval
  constructor
  · exact hmem p
  · intro h
    simp only [all_packages_mem, Bool.or_eq_true, List.any_eq_true,
      decide_eq_true_eq] at h
    rcases h with ⟨e, he, hep⟩ | ⟨e, he, hep⟩
    · exact hep ▸ (hcov e he).1
    · exact (hcov e he).2 p hep

/-- Bundled facts about the loop's terminal state. -/
theorem kahn_final_spec (g : DependencyGraph) (all_pkgs : List String)
    (hk : (g.graph.map Prod.fst).Nodup) (hnd : all_pkgs.Nodup)
    (hcov : ∀ e ∈ g.graph, e.1 ∈ all_pkgs ∧ ∀ d ∈ e.2, d ∈ all_pkgs) :
    KInv g all_pkgs (kahn_final g all_pkgs) ∧
    (kahn_final g all_pkgs).queue = [] := by
  have h := kahn_loop_post g all_pkgs hk hcov (all_pkgs.length + 1)
    { in_degree := (build_indices g.graph).2,
      queue := all_pkgs.filter (fun p => (build_indices g.graph).2 p = 0),
      load_order := [], levels_dict := [], current_level := 0 }
    (kinv_init g all_pkgs hk hnd hcov) (by simp)
  exact ⟨h.1, h.2.1⟩

/-- C10: the linear order has no duplicates, is disjoint from the
unresolved list, and together they cover exactly `get_all_packages()`. -/
theorem claim_C10_partition (g : DependencyGraph) (all_pkgs : List String)
    (hwf : StoreWF g) (hval : valid_enum g all_pkgs) :
    (calculate_load_order g all_pkgs).order.Nodup ∧
    (∀ p ∈ (calculate_load_order g all_pkgs).order,
      p ∉ (calculate_load_order g all_pkgs).unresolved) ∧
    (∀ p, (p ∈ (calculate_load_order g all_pkgs).order ∨
      p ∈ (calculate_load_order g all_pkgs).unresolved)
        ↔ all_packages_mem g p = true) := by
  obtain ⟨hk, hvnd⟩ := hwf
  obtain ⟨hnd, hmem, hcov⟩ := hval
  obtain ⟨⟨a, b, c, d, e, f⟩, hQ⟩ := kahn_final_spec g all_pkgs hk hnd hcov
  rw [calculate_load_order_eq]
  have hlo_closed := loaded_closed g (kahn_final g all_pkgs).load_order f
  have hzero : ∀ p ∈ (kahn_final g all_pkgs).load_order,
      (kahn_final g all_pkgs).in_degree p = 0 := by
    intro p hp
    rw [c p]
    have : (get_dependencies g p).filter
        (fun d => ¬ d ∈ (kahn_final g all_pkgs).load_order) = [] := by
      rw [List.filter_eq_nil_iff]
      intro x hx
      simp only [decide_eq_true_eq, Decidable.not_not]
      exact hlo_closed p hp x hx
    rw [this]
    rfl
  have hnonneg : ∀ p, 0 ≤ (kahn_final g all_pkgs).in_degree p := by
    intro p
    rw [c p]
    exact Int.natCast_nonneg _
  refine ⟨?_, ?_, ?_⟩
  · rw [hQ] at a
    simpa using a
  · intro p hp hcontra
    have h1 := (List.mem_filter.mp hcontra).2
    simp only [decide_eq_true_eq] at h1
    have := hzero p hp
    omega
  · intro p
    constructor
    · rintro (hp | hp)
      · rw [← valid_enum_mem_iff g all_pkgs ⟨hnd, hmem, hcov⟩ p]
        exact b p (List.mem_append.mpr (Or.inl hp))
      · rw [← valid_enum_mem_iff g all_pkgs ⟨hnd, hmem, hcov⟩ p]
        exact (List.mem_filter.mp hp).1
    · intro hp
      rw [← valid_enum_mem_iff g all_pkgs ⟨hnd, hmem, hcov⟩ p] at hp
      by_cases hz : (kahn_final g all_pkgs).in_degree p = 0
      · rcases e p hp hz with h | h
        · exact Or.inl h
        · rw [hQ] at h
          cases h
      · refine Or.inr (List.mem_filter.mpr ⟨hp, ?_⟩)
        have := hnonneg p
        simp only [decide_eq_true_eq]
        omega

/-- The linear order starts with the whole initial ready queue. -/
theorem kahn_final_order_start (g : DependencyGraph) (all_pkgs : List String)
    (hk : (g.graph.map Prod.fst).Nodup) (hnd : all_pkgs.Nodup)
    (hcov : ∀ e ∈ g.graph, e.1 ∈ all_pkgs ∧ ∀ d ∈ e.2, d ∈ all_pkgs) :
    ∃ ext, (kahn_final g all_pkgs).load_order
      = all_pkgs.filter (fun p => (build_indices g.graph).2 p = 0) ++ ext := by
  by_cases hq : all_pkgs.filter (fun p => (build_indices g.graph).2 p = 0) = []
  · exact ⟨(kahn_final g all_pkgs).load_order, by rw [hq]; rfl⟩
  · show ∃ ext, (kahn_loop (build_indices g.graph).1 (all_pkgs.length + 1)
      { in_degree := (build_indices g.graph).2,
        queue := all_pkgs.filter (fun p => (build_indices g.graph).2 p = 0),
        load_order := [], levels_dict := [], current_level := 0 }).load_order = _
    rw [kahn_loop]
    split
    · rename_i hemp
      exact absurd (by simpa using hemp) hq
    · have hinv := kinv_init g all_pkgs hk hnd hcov
      set q0 : List String :=
        all_pkgs.filter (fun p => (build_indices g.graph).2 p = 0) with hq0
      set stI : KahnState :=
        { in_degree := (build_indices g.graph).2, queue := q0,
          load_order := [], levels_dict := [], current_level := 0 } with hstI
      set st0 : KahnState := { stI with queue := [], levels_dict := stI.levels_dict ++ [(stI.current_level, stI.queue)] } with hst0
      have hmid := kinv_to_kmid g all_pkgs stI hinv
        (stI.levels_dict ++ [(stI.current_level, stI.queue)])
      have hmid2 := kmid_round g all_pkgs hk hcov stI.queue st0 hmid
      have hinv1 : KInv g all_pkgs
          (process_pkgs (build_indices g.graph).1 stI.queue st0) :=
        kmid_nil_to_kinv g all_pkgs _ hmid2
      set st1 : KahnState :=
        process_pkgs (build_indices g.graph).1 stI.queue st0 with hst1
      set st2 : KahnState := { st1 with current_level := st1.current_level + 1 }
        with hst2
      have hinv2 : KInv g all_pkgs st2 := by
        obtain ⟨a, b, c, d, e, f⟩ := hinv1
        exact ⟨a, b, c, d, e, f⟩
      have hlo1 : st1.load_order = q0 := by
        rw [hst1, pp_load_order]
        rfl
      have hlo2 : st2.load_order = q0 := hlo1
      have hlen2 : all_pkgs.length + 1 ≤ st2.load_order.length + all_pkgs.length := by
        rw [hlo2]
        have : 1 ≤ q0.length := by
          cases hc : q0 with
          | nil => exact absurd hc hq
          | cons x xs => simp
        omega
      obtain ⟨hA, hB, ext, hC⟩ := kahn_loop_post g all_pkgs hk hcov
        all_pkgs.length st2 hinv2 hlen2
      refine ⟨ext, ?_⟩
      rw [hC, hlo2]

/-- C1: every package in the computed linear order appears after all of
its recorded direct dependencies, and the order begins with exactly the
packages that have no recorded dependencies (the initial ready queue,
in set-enumeration order). -/
theorem claim_C1_order_respects_dependencies (g : DependencyGraph)
    (all_pkgs : List String) (hwf : StoreWF g) (hval : valid_enum g all_pkgs) :
    (∀ i (h : i < (calculate_load_order g all_pkgs).order.length),
      ∀ d ∈ get_dependencies g ((calculate_load_order g all_pkgs).order.get ⟨i, h⟩),
        d ∈ (calculate_load_order g all_pkgs).order.take i) ∧
    (calculate_load_order g all_pkgs).order.take
        ((all_pkgs.filter (fun p => get_dependencies g p = [])).length)
      = all_pkgs.filter (fun p => get_dependencies g p = []) := by
  obtain ⟨hk, hvnd⟩ := hwf
  obtain ⟨hnd, hmem, hcov⟩ := hval
  obtain ⟨⟨a, b, c, d, e, f⟩, hQ⟩ := kahn_final_spec g all_pkgs hk hnd hcov
  rw [calculate_load_order_eq]
  refine ⟨f, ?_⟩
  have hfeq : all_pkgs.filter (fun p => (build_indices g.graph).2 p = 0)
      = all_pkgs.filter (fun p => get_dependencies g p = []) := by
    apply List.filter_congr
    intro p _
    apply decide_eq_decide.mpr
    rw [in_degree_eq g hk p]
    constructor
    · intro h0
      exact List.length_eq_zero.mp (by exact_mod_cast h0)
    · intro h0
      rw [h0]
      rfl
  obtain ⟨ext, hpre⟩ := kahn_final_order_start g all_pkgs hk hnd hcov
  rw [hpre, hfeq]
  exact List.take_left _ _

/-- Witness for C1 on the store `A → B` with enumeration `[A, B]`. -/
theorem claim_C1_witness :
    (∀ i (h : i < (calculate_load_order gEx8 ["A", "B"]).order.length),
      ∀ d ∈ get_dependencies gEx8
          ((calculate_load_order gEx8 ["A", "B"]).order.get ⟨i, h⟩),
        d ∈ (calculate_load_order gEx8 ["A", "B"]).order.take i) ∧
    (calculate_load_order gEx8 ["A", "B"]).order.take
        ((["A", "B"].filter (fun p => get_dependencies gEx8 p = [])).length)
      = ["A", "B"].filter (fun p => get_dependencies gEx8 p = []) :=
  claim_C1_order_respects_dependencies gEx8 ["A", "B"] (by decide) (by decide)

/-- Witness for C10 on the store `A → B` with enumeration `[A, B]`. -/
theorem claim_C10_witness :
    (calculate_load_order gEx8 ["A", "B"]).order.Nodup ∧
    (∀ p ∈ (calculate_load_order gEx8 ["A", "B"]).order,
      p ∉ (calculate_load_order gEx8 ["A", "B"]).unresolved) ∧
    (∀ p, (p ∈ (calculate_load_order gEx8 ["A", "B"]).order ∨
      p ∈ (calculate_load_order gEx8 ["A", "B"]).unresolved)
        ↔ all_packages_mem gEx8 p = true) :=
  claim_C10_partition gEx8 ["A", "B"] (by decide) (by decide)

/-! ### C3: unresolved packages and residual cycles -/

theorem mem_take_idx {α : Type} (l : List α) (i : Nat) (x : α)
    (hx : x ∈ l.take i) :
    ∃ j, ∃ (hj : j < l.length), j < i ∧ l.get ⟨j, hj⟩ = x := by
  obtain ⟨⟨j, hjlen⟩, hget⟩ := List.mem_iff_get.mp hx
  have hlen : (l.take i).length = min i l.length := List.length_take i l
  have hj1 : j < i := by
    rw [hlen] at hjlen
    omega
  have hj2 : j < l.length := by
    rw [hlen] at hjlen
    omega
  refine ⟨j, hj2, hj1, ?_⟩
  rw [← hget]
  simp [List.get_eq_getElem, List.getElem_take]

/-- Along a dependency-respecting order, everything transitively
reachable from the package at index `i` lies strictly before `i`. -/
theorem reach_in_take (g : DependencyGraph) (lo : List String)
    (hf : ∀ i (h : i < lo.length),
      ∀ d ∈ get_dependencies g (lo.get ⟨i, h⟩), d ∈ lo.take i) :
    ∀ b c, Relation.TransGen (EdgeTo g) b c →
      ∀ i (h : i < lo.length), lo.get ⟨i, h⟩ = b → c ∈ lo.take i := by
  intro b c htg
  induction htg with
  | single hbc =>
    intro i h hget
    exact hf i h _ (by rw [hget]; exact hbc)
  | tail h1 hlast ih =>
    intro i h hget
    have hc' := ih i h hget
    obtain ⟨j, hj, hji, hgetj⟩ := mem_take_idx lo i _ hc'
    have := hf j hj _ (by rw [hgetj]; exact hlast)
    exact List.take_subset_take_left lo (Nat.le_of_lt hji) this

theorem transGen_exists_first_edge (g : DependencyGraph) (a b : String)
    (h : Relation.TransGen (EdgeTo g) a b) : ∃ c, EdgeTo g a c := by
  induction h with
  | single h1 => exact ⟨_, h1⟩
  | tail h1 h2 ih => exact ih

theorem cycle_not_in_order (g : DependencyGraph) (lo : List String)
    (hnd : lo.Nodup)
    (hf : ∀ i (h : i < lo.length),
      ∀ d ∈ get_dependencies g (lo.get ⟨i, h⟩), d ∈ lo.take i)
    (p : String) (hcyc : Relation.TransGen (EdgeTo g) p p) : p ∉ lo := by
  intro hp
  obtain ⟨⟨i, hi⟩, hget⟩ := List.mem_iff_get.mp hp
  have hmem := reach_in_take g lo hf p p hcyc i hi hget
  obtain ⟨j, hj, hji, hgetj⟩ := mem_take_idx lo i p hmem
  have : (⟨j, hj⟩ : Fin lo.length) = ⟨i, hi⟩ :=
    (List.Nodup.get_inj_iff hnd).mp (by rw [hgetj, hget])
  have : j = i := congrArg Fin.val this
  omega

theorem next_unresolved_spec (g : DependencyGraph) (all_pkgs : List String)
    (hcov : ∀ e ∈ g.graph, e.1 ∈ all_pkgs ∧ ∀ d ∈ e.2, d ∈ all_pkgs)
    (order : List String) (q : String)
    (hfil : (get_dependencies g q).filter (fun d => ¬ d ∈ order) ≠ []) :
    EdgeTo g q (next_unresolved g order q) ∧
    next_unresolved g order q ∉ order ∧
    next_unresolved g order q ∈ all_pkgs := by
  cases hc : (get_dependencies g q).filter (fun d => ¬ d ∈ order) with
  | nil => exact absurd hc hfil
  | cons d t =>
    have hnext : next_unresolved g order q = d := by
      unfold next_unresolved
      rw [hc]
    have hd : d ∈ (get_dependencies g q).filter (fun d => ¬ d ∈ order) := by
      rw [hc]
      exact List.mem_cons_self _ _
    have hd1 : d ∈ get_dependencies g q := (List.mem_filter.mp hd).1
    have hd2 : d ∉ order := by
      have := (List.mem_filter.mp hd).2
      simpa [decide_eq_true_eq] using this
    have hd3 : d ∈ all_pkgs := by
      cases hlk : lookupN g.graph q with
      | none =>
        rw [get_dependencies, hlk] at hd1
        cases hd1
      | some deps' =>
        refine (hcov _ (lookupN_mem _ _ _ hlk)).2 d ?_
        rw [get_dependencies, hlk] at hd1
        exact hd1
    rw [hnext]
    exact ⟨hd1, hd2, hd3⟩

/-- C3: the unresolved list is non-empty exactly when the recorded
adjacency edges contain a directed cycle. -/
theorem claim_C3_unresolved_iff_cycle (g : DependencyGraph)
    (all_pkgs : List String) (hwf : StoreWF g) (hval : valid_enum g all_pkgs) :
    (calculate_load_order g all_pkgs).unresolved ≠ [] ↔
      ∃ p, Relation.TransGen (EdgeTo g) p p := by
  obtain ⟨hk, hvnd⟩ := hwf
  obtain ⟨hnd, hmem, hcov⟩ := hval
  obtain ⟨⟨a, b, c, d, e, f⟩, hQ⟩ := kahn_final_spec g all_pkgs hk hnd hcov
  rw [calculate_load_order_eq]
  have hlo_closed := loaded_closed g (kahn_final g all_pkgs).load_order f
  have hzero : ∀ p ∈ (kahn_final g all_pkgs).load_order,
      (kahn_final g all_pkgs).in_degree p = 0 := by
    intro p hp
    rw [c p]
    have : (get_dependencies g p).filter
        (fun x => ¬ x ∈ (kahn_final g all_pkgs).load_order) = [] := by
      rw [List.filter_eq_nil_iff]
      intro x hx
      simp only [decide_eq_true_eq, Decidable.not_not]
      exact hlo_closed p hp x hx
    rw [this]
    rfl
  have hnonneg : ∀ p, 0 ≤ (kahn_final g all_pkgs).in_degree p := by
    intro p
    rw [c p]
    exact Int.natCast_nonneg _
  have hpos_of_not : ∀ q, q ∈ all_pkgs →
      q ∉ (kahn_final g all_pkgs).load_order →
      0 < (kahn_final g all_pkgs).in_degree q := by
    intro q hq1 hq2
    have hne0 : (kahn_final g all_pkgs).in_degree q ≠ 0 := by
      intro h0
      rcases e q hq1 h0 with h | h
      · exact hq2 h
      · rw [hQ] at h
        cases h
    have := hnonneg q
    omega
  have hstep : ∀ q, q ∈ all_pkgs → q ∉ (kahn_final g all_pkgs).load_order →
      EdgeTo g q (next_unresolved g (kahn_final g all_pkgs).load_order q) ∧
      next_unresolved g (kahn_final g all_pkgs).load_order q
        ∉ (kahn_final g all_pkgs).load_order ∧
      next_unresolved g (kahn_final g all_pkgs).load_order q ∈ all_pkgs := by
    intro q hq1 hq2
    have hpos := hpos_of_not q hq1 hq2
    have hfil : (get_dependencies g q).filter
        (fun x => ¬ x ∈ (kahn_final g all_pkgs).load_order) ≠ [] := by
      intro h0
      rw [c q, h0] at hpos
      simp at hpos
    exact next_unresolved_spec g all_pkgs hcov _ q hfil
  constructor
  · intro hne
    obtain ⟨p0, hp0⟩ := List.exists_mem_of_ne_nil _ hne
    have hp0all : p0 ∈ all_pkgs := (List.mem_filter.mp hp0).1
    have hp0pos : 0 < (kahn_final g all_pkgs).in_degree p0 := by
      have := (List.mem_filter.mp hp0).2
      simpa [decide_eq_true_eq] using this
    have hp0no : p0 ∉ (kahn_final g all_pkgs).load_order := by
      intro h
      have := hzero p0 h
      omega
    have hiter : ∀ k,
        (next_unresolved g (kahn_final g all_pkgs).load_order)^[k] p0 ∈ all_pkgs ∧
        (next_unresolved g (kahn_final g all_pkgs).load_order)^[k] p0
          ∉ (kahn_final g all_pkgs).load_order := by
      intro k
      induction k with
      | zero => simpa using ⟨hp0all, hp0no⟩
      | succ k ih =>
        rw [Function.iterate_succ_apply']
        obtain ⟨h1, h2, h3⟩ := hstep _ ih.1 ih.2
        exact ⟨h3, h2⟩
    have htrans : ∀ (m : Nat), 1 ≤ m → ∀ x, x ∈ all_pkgs →
        x ∉ (kahn_final g all_pkgs).load_order →
        Relation.TransGen (EdgeTo g) x
          ((next_unresolved g (kahn_final g all_pkgs).load_order)^[m] x) ∧
        ((next_unresolved g (kahn_final g all_pkgs).load_order)^[m] x ∈ all_pkgs ∧
          (next_unresolved g (kahn_final g all_pkgs).load_order)^[m] x
            ∉ (kahn_final g all_pkgs).load_order) := by
      intro m
      induction m with
      | zero => intro h; exact absurd h (by omega)
      | succ m ih =>
        intro _ x hx1 hx2
        by_cases hm : m = 0
        · subst hm
          obtain ⟨he, hno, hall⟩ := hstep x hx1 hx2
          rw [Function.iterate_succ_apply']
          simp only [Function.iterate_zero_apply]
          exact ⟨Relation.TransGen.single he, hall, hno⟩
        · have hm1 : 1 ≤ m := by omega
          obtain ⟨ht, hall, hno⟩ := ih hm1 x hx1 hx2
          rw [Function.iterate_succ_apply']
          obtain ⟨he, hno2, hall2⟩ := hstep _ hall hno
          exact ⟨Relation.TransGen.tail ht he, hall2, hno2⟩
    have hcard : all_pkgs.toFinset.card
        < (Finset.univ : Finset (Fin (all_pkgs.length + 1))).card := by
      rw [Finset.card_univ, Fintype.card_fin]
      have := List.toFinset_card_le (l := all_pkgs)
      omega
    obtain ⟨i, _, j, _, hij, heq⟩ :=
      Finset.exists_ne_map_eq_of_card_lt_of_maps_to
        (s := (Finset.univ : Finset (Fin (all_pkgs.length + 1))))
        (f := fun k : Fin (all_pkgs.length + 1) =>
          (next_unresolved g (kahn_final g all_pkgs).load_order)^[k.val] p0)
        hcard
        (fun k _ => List.mem_toFinset.mpr (hiter k.val).1)
    have hijval : i.val ≠ j.val := fun hh => hij (Fin.ext hh)
    rcases Nat.lt_or_ge i.val j.val with hlt | hge
    · obtain ⟨ht, _, _⟩ := htrans (j.val - i.val) (by omega)
        ((next_unresolved g (kahn_final g all_pkgs).load_order)^[i.val] p0)
        (hiter i.val).1 (hiter i.val).2
      have hfix : (next_unresolved g (kahn_final g all_pkgs).load_order)^[j.val - i.val]
          ((next_unresolved g (kahn_final g all_pkgs).load_order)^[i.val] p0)
          = (next_unresolved g (kahn_final g all_pkgs).load_order)^[i.val] p0 := by
        rw [← Function.iterate_add_apply, Nat.sub_add_cancel (Nat.le_of_lt hlt)]
        exact heq.symm
      rw [hfix] at ht
      exact ⟨_, ht⟩
    · have hlt2 : j.val < i.val := by omega
      obtain ⟨ht, _, _⟩ := htrans (i.val - j.val) (by omega)
        ((next_unresolved g (kahn_final g all_pkgs).load_order)^[j.val] p0)
        (hiter j.val).1 (hiter j.val).2
      have hfix : (next_unresolved g (kahn_final g all_pkgs).load_order)^[i.val - j.val]
          ((next_unresolved g (kahn_final g all_pkgs).load_order)^[j.val] p0)
          = (next_unresolved g (kahn_final g all_pkgs).load_order)^[j.val] p0 := by
        rw [← Function.iterate_add_apply, Nat.sub_add_cancel (Nat.le_of_lt hlt2)]
        exact heq
      rw [hfix] at ht
      exact ⟨_, ht⟩
  · rintro ⟨p, hp⟩
    have hand : ((kahn_final g all_pkgs).load_order ++ []).Nodup := hQ ▸ a
    have hnodup : (kahn_final g all_pkgs).load_order.Nodup := by
      simpa using hand
    have hpno : p ∉ (kahn_final g all_pkgs).load_order :=
      cycle_not_in_order g _ hnodup f p hp
    have hpall : p ∈ all_pkgs := by
      obtain ⟨c0, hc0⟩ := transGen_exists_first_edge g p p hp
      cases hlk : lookupN g.graph p with
      | none =>
        unfold EdgeTo get_dependencies at hc0
        rw [hlk] at hc0
        cases hc0
      | some deps' =>
        exact (hcov _ (lookupN_mem _ _ _ hlk)).1
    have hpos := hpos_of_not p hpall hpno
    refine List.ne_nil_of_mem (a := p) (List.mem_filter.mpr ⟨hpall, ?_⟩)
    simp only [decide_eq_true_eq]
    exact hpos

/-- Witness for C3 on the cyclic store `A ↔ B`. -/
theorem claim_C3_witness :
    StoreWF gCyc ∧ valid_enum gCyc ["A", "B"] ∧
    ((calculate_load_order gCyc ["A", "B"]).unresolved ≠ [] ↔
      ∃ p, Relation.TransGen (EdgeTo gCyc) p p) :=
  ⟨by decide, by decide,
    claim_C3_unresolved_iff_cycle gCyc ["A", "B"] (by decide) (by decide)⟩

/-! ### C2: no lexicographic sorting is performed -/

theorem kahn_loop_levels_extend (rg : String → List String) :
    ∀ (fuel : Nat) (st : KahnState), ∃ ext,
      (kahn_loop rg fuel st).levels_dict = st.levels_dict ++ ext := by
  intro fuel
  induction fuel with
  | zero => intro st; exact ⟨[], by simp [kahn_loop]⟩
  | succ fuel ih =>
    intro st
    rw [kahn_loop]
    split
    · exact ⟨[], by simp⟩
    · set st0 : KahnState := { st with queue := [], levels_dict := st.levels_dict ++ [(st.current_level, st.queue)] } with hst0
      set st1 : KahnState := process_pkgs rg st.queue st0 with hst1
      set st2 : KahnState := { st1 with current_level := st1.current_level + 1 } with hst2
      obtain ⟨ext, hext⟩ := ih st2
      refine ⟨[(st.current_level, st.queue)] ++ ext, ?_⟩
      rw [hext]
      have h1 : st2.levels_dict = st.levels_dict ++ [(st.current_level, st.queue)] := by
        show st1.levels_dict = _
        rw [hst1, (pp_fields rg st.queue st0).1]
      rw [h1, List.append_assoc]

theorem kahn_final_levels_head (g : DependencyGraph) (all_pkgs : List String)
    (hq : all_pkgs.filter (fun p => (build_indices g.graph).2 p = 0) ≠ []) :
    ∃ ext, (kahn_final g all_pkgs).levels_dict
      = [(0, all_pkgs.filter (fun p => (build_indices g.graph).2 p = 0))] ++ ext := by
  show ∃ ext, (kahn_loop (build_indices g.graph).1 (all_pkgs.length + 1)
    { in_degree := (build_indices g.graph).2,
      queue := all_pkgs.filter (fun p => (build_indices g.graph).2 p = 0),
      load_order := [], levels_dict := [], current_level := 0 }).levels_dict = _
  rw [kahn_loop]
  split
  · rename_i hemp
    exact absurd (by simpa using hemp) hq
  · set stI : KahnState :=
      { in_degree := (build_indices g.graph).2,
        queue := all_pkgs.filter (fun p => (build_indices g.graph).2 p = 0),
        load_order := [], levels_dict := [], current_level := 0 } with hstI
    set st0 : KahnState := { stI with queue := [], levels_dict := stI.levels_dict ++ [(stI.current_level, stI.queue)] } with hst0
    set st1 : KahnState := process_pkgs (build_indices g.graph).1 stI.queue st0 with hst1
    set st2 : KahnState := { st1 with current_level := st1.current_level + 1 } with hst2
    obtain ⟨ext, hext⟩ := kahn_loop_levels_extend (build_indices g.graph).1
      all_pkgs.length st2
    refine ⟨ext, ?_⟩
    rw [hext]
    have h1 : st2.levels_dict
        = [(0, all_pkgs.filter (fun p => (build_indices g.graph).2 p = 0))] := by
      show st1.levels_dict = _
      rw [hst1, (pp_fields _ _ _).1]
      rfl
    rw [h1]

/-- C2 counterexample: for the store `c → b, a` and the (legitimate)
set enumeration `[c, b, a]`, the level-0 bucket — and hence the initial
ready queue — comes out as `[b, a]`, which is not in lexicographic
order.  No sorting happens anywhere in `calculate_load_order`
(src/dependency_graph.py:202-224 iterates the `all_packages` set
directly). -/
theorem claim_C2_counterexample :
    valid_enum gC2 ["c", "b", "a"] ∧
    (calculate_load_order gC2 ["c", "b", "a"]).levels
      = [(0, ["b", "a"]), (1, ["c"])] ∧
    ¬ List.Sorted (fun x y : String => x ≤ y) ["b", "a"] := by
  refine ⟨by decide, by decide, ?_⟩
  intro hs
  have hba : ("b" : String) ≤ "a" :=
    List.rel_of_sorted_cons hs "a" (List.mem_singleton.mpr rfl)
  have hab : ("a" : String) < "b" := by
    rw [String.lt_iff_toList_lt]
    decide
  exact absurd (lt_of_lt_of_le hab hba) (lt_irrefl _)

/-- C2 amended: `calculate_load_order` performs no sorting at all; the
unresolved list is the subsequence of the caller's set enumeration with
positive pending count, and the level-0 bucket (the initial ready
queue) is exactly the zero-dependency packages in enumeration order —
lexicographic only if the enumeration happens to be. -/
theorem claim_C2_no_sorting (g : DependencyGraph) (all_pkgs : List String)
    (hwf : StoreWF g) (hval : valid_enum g all_pkgs) :
    List.Sublist (calculate_load_order g all_pkgs).unresolved all_pkgs ∧
    (all_pkgs.filter (fun p => get_dependencies g p = []) ≠ [] →
      (calculate_load_order g all_pkgs).levels.head?
        = some (0, all_pkgs.filter (fun p => get_dependencies g p = []))) := by
  obtain ⟨hk, hvnd⟩ := hwf
  have hfeq : all_pkgs.filter (fun p => (build_indices g.graph).2 p = 0)
      = all_pkgs.filter (fun p => get_dependencies g p = []) := by
    apply List.filter_congr
    intro p _
    apply decide_eq_decide.mpr
    rw [in_degree_eq g hk p]
    constructor
    · intro h0
      exact List.length_eq_zero.mp (by exact_mod_cast h0)
    · intro h0
      rw [h0]
      rfl
  rw [calculate_load_order_eq]
  constructor
  · exact List.filter_sublist all_pkgs
  · intro hne
    obtain ⟨ext, hext⟩ := kahn_final_levels_head g all_pkgs (by rw [hfeq]; exact hne)
    show (kahn_final g all_pkgs).levels_dict.head? = _
    rw [hext, hfeq]
    rfl

/-- Witness for C2's amended statement on the store `A → B`. -/
theorem claim_C2_witness :
    StoreWF gEx8 ∧ valid_enum gEx8 ["A", "B"] ∧
    (List.Sublist (calculate_load_order gEx8 ["A", "B"]).unresolved ["A", "B"] ∧
    ((["A", "B"].filter (fun p => get_dependencies gEx8 p = [])) ≠ [] →
      (calculate_load_order gEx8 ["A", "B"]).levels.head?
        = some (0, ["A", "B"].filter (fun p => get_dependencies gEx8 p = [])))) :=
  ⟨by decide, by decide, claim_C2_no_sorting gEx8 ["A", "B"] (by decide) (by decide)⟩
